import Mathlib

/-!
Verification of the link-health crawler `bfs_crawl_360_to_notion.py`.

Strings are modelled as lists of characters (`Str`), matching Python `str`
as a sequence of code points.  The URL helpers from `urllib.parse` that the
crawler calls (`urlparse`, `urljoin`, `urldefrag`, `urlunparse`) are embedded
following the CPython 3.9 `urllib/parse.py` algorithm; `ValueError`
(unbalanced IPv6 brackets in a netloc) is modelled with `Except`.  The
bracketed-host content validation of newer CPython versions is not modelled.
-/

abbrev Str := List Char

/-- Split a list at the first occurrence of `c`:
`splitFirst c s = some (a, b)` iff `s = a ++ c :: b` with `c ∉ a`.
Models Python `s.split(c, 1)` (when `c` occurs) and `s.find(c)`. -/
def splitFirst (c : Char) : Str → Option (Str × Str)
  | [] => none
  | x :: xs =>
    if x = c then some ([], xs)
    else
      match splitFirst c xs with
      | none => none
      | some (a, b) => some (x :: a, b)

/-- Split a list at the last occurrence of `c` (`s = a ++ c :: b`, `c ∉ b`).
Models Python `s.rfind(c)`. -/
def splitLast (c : Char) (s : Str) : Option (Str × Str) :=
  match splitFirst c s.reverse with
  | none => none
  | some (a, b) => some (b.reverse, a.reverse)

/-- Python `s.split(c)` (full split, keeps empty components). -/
def splitOnChar (c : Char) : Str → List Str
  | [] => [[]]
  | x :: xs =>
    if x = c then [] :: splitOnChar c xs
    else
      match splitOnChar c xs with
      | [] => [[x]]
      | a :: rest => (x :: a) :: rest

/-- Helper for `filterMid`: drop empty lists except for the final element. -/
def filterMidAux : List Str → List Str
  | [] => []
  | [y] => [y]
  | y :: y' :: ys =>
    if y = [] then filterMidAux (y' :: ys) else y :: filterMidAux (y' :: ys)

/-- Python `segments[1:-1] = filter(None, segments[1:-1])`: keep the first and
last element, drop empty elements in between. -/
def filterMid : List Str → List Str
  | [] => []
  | x :: xs => x :: filterMidAux xs

/-- Characters allowed in a URL scheme (CPython `scheme_chars`). -/
def isSchemeChar (c : Char) : Bool :=
  c.isAlpha || c.isDigit || c = '+' || c = '-' || c = '.'

/-- Python `str.lower()` restricted to ASCII (sufficient for all inputs the
crawler compares case-insensitively). -/
def lowerStr (s : Str) : Str := s.map Char.toLower

/-- Python whitespace as stripped by `str.strip()`. -/
def isPySpace (c : Char) : Bool :=
  c = ' ' || c = '\t' || c = '\n' || c = '\r' || c = '\x0b' || c = '\x0c' ||
  c = '\x1c' || c = '\x1d' || c = '\x1e' || c = '\x1f' || c = '\x85' || c = '\xa0'

/-- Python `str.strip()`. -/
def pyStrip (s : Str) : Str :=
  ((s.dropWhile (fun c => isPySpace c)).reverse.dropWhile (fun c => isPySpace c)).reverse

/-- Python `s.startswith(p)`. -/
def startsWithStr (p s : Str) : Bool := p.isPrefixOf s

/-- Python `s.endswith(p)`. -/
def endsWithStr (p s : Str) : Bool := p.isSuffixOf s

/-- Python `needle in hay` (substring containment). -/
def containsSub (needle : Str) : Str → Bool
  | [] => needle.isPrefixOf []
  | x :: xs => needle.isPrefixOf (x :: xs) || containsSub needle xs

/-- Result of `urllib.parse.urlsplit`. -/
structure SplitResult where
  scheme : Str
  netloc : Str
  path : Str
  query : Str
  fragment : Str
deriving DecidableEq, Repr

/-- Result of `urllib.parse.urlparse`. -/
structure ParseResult where
  scheme : Str
  netloc : Str
  path : Str
  params : Str
  query : Str
  fragment : Str
deriving DecidableEq, Repr

/-- CPython `urllib.parse.uses_relative`. -/
def uses_relative : List Str :=
  (["", "ftp", "http", "gopher", "nntp", "imap", "wais", "file", "https",
    "shttp", "mms", "prospero", "rtsp", "rtspu", "sftp", "svn", "svn+ssh",
    "ws", "wss"] : List String).map String.data

/-- CPython `urllib.parse.uses_netloc`. -/
def uses_netloc : List Str :=
  (["", "ftp", "http", "gopher", "nntp", "telnet", "imap", "wais", "file",
    "mms", "https", "shttp", "snews", "prospero", "rtsp", "rtspu", "rsync",
    "svn", "svn+ssh", "sftp", "nfs", "git", "git+ssh", "ws", "wss",
    "itms-services"] : List String).map String.data

/-- CPython `urllib.parse.uses_params`. -/
def uses_params : List Str :=
  (["", "ftp", "hdl", "prospero", "http", "imap", "https", "shttp", "rtsp",
    "rtspu", "sip", "sips", "mms", "sftp", "tel"] : List String).map String.data

/-- A character that does not delimit the end of a netloc
(CPython `_splitnetloc` stops at the first of `/?#`). -/
def netlocChar (c : Char) : Bool := !(c = '/' || c = '?' || c = '#')

/-- CPython `urllib.parse.urlsplit(url, scheme=d)` (allow_fragments=True).
`ValueError` for unbalanced brackets is modelled as `.error`. -/
def urlsplit (url d : Str) : Except String SplitResult :=
  let sp :=
    match splitFirst ':' url with
    | some (pre, post) =>
      if pre ≠ [] ∧ pre.all isSchemeChar then (lowerStr pre, post) else (d, url)
    | none => (d, url)
  let scheme := sp.1
  let rest := sp.2
  let nl :=
    if rest.take 2 = ['/', '/'] then
      ((rest.drop 2).takeWhile netlocChar, (rest.drop 2).dropWhile netlocChar)
    else ([], rest)
  let netloc := nl.1
  let rest2 := nl.2
  if ('[' ∈ netloc ∧ ']' ∉ netloc) ∨ (']' ∈ netloc ∧ '[' ∉ netloc) then
    .error ("Invalid IPv6 URL")
  else
    let fr :=
      match splitFirst '#' rest2 with
      | some (a, f) => (a, f)
      | none => (rest2, [])
    let pq :=
      match splitFirst '?' fr.1 with
      | some (a, q) => (a, q)
      | none => (fr.1, [])
    .ok ⟨scheme, netloc, pq.1, pq.2, fr.2⟩

/-- CPython `urllib.parse._splitparams` (only ever called when `';' ∈ url`). -/
def splitparamsFn (p : Str) : Str × Str :=
  if '/' ∈ p then
    match splitLast '/' p with
    | some (a, b) =>
      (match splitFirst ';' b with
       | none => (p, [])
       | some (b1, b2) => (a ++ '/' :: b1, b2))
    | none => (p, [])
  else
    match splitFirst ';' p with
    | some (p1, p2) => (p1, p2)
    | none => (p, [])

/-- The params split as performed by `urlparse`: only for schemes using
params and only when a `;` is present. -/
def splitPathParams (scheme p : Str) : Str × Str :=
  if scheme ∈ uses_params ∧ ';' ∈ p then splitparamsFn p else (p, [])

/-- CPython `urllib.parse.urlparse(url, scheme=d)`. -/
def urlparse (url d : Str) : Except String ParseResult :=
  match urlsplit url d with
  | .error e => .error e
  | .ok r =>
    let pp := splitPathParams r.scheme r.path
    .ok ⟨r.scheme, r.netloc, pp.1, pp.2, r.query, r.fragment⟩

/-- CPython `urllib.parse.urlunsplit`. -/
def urlunsplit (scheme netloc path query fragment : Str) : Str :=
  let u1 :=
    if netloc ≠ [] ∨ (path ≠ [] ∧ path.take 2 = ['/', '/']) then
      '/' :: '/' :: netloc ++ (if path ≠ [] ∧ path.head? ≠ some '/' then '/' :: path else path)
    else path
  let u2 := if scheme ≠ [] then scheme ++ ':' :: u1 else u1
  let u3 := if query ≠ [] then u2 ++ '?' :: query else u2
  if fragment ≠ [] then u3 ++ '#' :: fragment else u3

/-- Rejoin path and params (the inverse of the params split), as done by
CPython `urlunparse`. -/
def pathPortion (path params : Str) : Str :=
  if params ≠ [] then path ++ ';' :: params else path

/-- CPython `urllib.parse.urlunparse`. -/
def urlunparse (r : ParseResult) : Str :=
  urlunsplit r.scheme r.netloc (pathPortion r.path r.params) r.query r.fragment

/-- One step of CPython `urljoin`'s segment resolution loop
(`'..'` pops, `'.'` is skipped, anything else is appended). -/
def resolveStep (acc : List Str) (seg : Str) : List Str :=
  if seg = ['.', '.'] then acc.dropLast
  else if seg = ['.'] then acc
  else acc ++ [seg]

/-- CPython `urllib.parse.urljoin(base, url)`. -/
def urljoin (base url : Str) : Except String Str :=
  if base = [] then .ok url
  else if url = [] then .ok base
  else
    match urlparse base [] with
    | .error e => .error e
    | .ok b =>
      match urlparse url b.scheme with
      | .error e => .error e
      | .ok t =>
        if t.scheme ≠ b.scheme ∨ t.scheme ∉ uses_relative then .ok url
        else if t.scheme ∈ uses_netloc ∧ t.netloc ≠ [] then .ok (urlunparse t)
        else
          let netloc := if t.scheme ∈ uses_netloc then b.netloc else t.netloc
          if t.path = [] ∧ t.params = [] then
            .ok (urlunparse ⟨t.scheme, netloc, b.path, b.params,
                  (if t.query = [] then b.query else t.query), t.fragment⟩)
          else
            let base_parts0 := splitOnChar '/' b.path
            let base_parts :=
              if base_parts0.getLast? ≠ some ([] : Str) then base_parts0.dropLast
              else base_parts0
            let segments :=
              if t.path.head? = some '/' then splitOnChar '/' t.path
              else filterMid (base_parts ++ splitOnChar '/' t.path)
            let resolved0 := segments.foldl resolveStep []
            let resolved :=
              if segments.getLast? = some ['.'] ∨ segments.getLast? = some ['.', '.'] then
                resolved0 ++ [([] : Str)]
              else resolved0
            let joined := List.intercalate ['/'] resolved
            .ok (urlunparse ⟨t.scheme, netloc,
                  (if joined = [] then ['/'] else joined), t.params, t.query, t.fragment⟩)

/-- The URL part of CPython `urllib.parse.urldefrag(url)`. -/
def urldefragUrl (url : Str) : Except String Str :=
  if '#' ∈ url then
    match urlparse url [] with
    | .error e => .error e
    | .ok r => .ok (urlunparse ⟨r.scheme, r.netloc, r.path, r.params, r.query, []⟩)
  else .ok url

/-! ## Repository URL helpers (`bfs_crawl_360_to_notion.py`) -/

/-- `strip_trailing_slash` (lines 165-168). -/
def strip_trailing_slash (url : Str) : Str :=
  if url.getLast? = some '/' ∧ url.length > 8 then url.dropLast else url

/-- `drop_query` (lines 170-172): `urlunparse(urlparse(url)._replace(query=""))`. -/
def drop_query (url : Str) : Except String Str :=
  match urlparse url [] with
  | .error e => .error e
  | .ok r => .ok (urlunparse ⟨r.scheme, r.netloc, r.path, r.params, [], r.fragment⟩)

/-- `normalize_url` (lines 174-182): reject empty, fragment-only and
non-navigable hrefs, resolve against the base, drop the fragment, strip one
trailing slash. -/
def normalize_url (base href : Str) : Except String (Option Str) :=
  if href = [] then .ok none
  else
    let h := pyStrip href
    if h.head? = some '#' ∨ startsWithStr (("mailto:").data) h = true ∨
        startsWithStr (("tel:").data) h = true ∨
        startsWithStr (("javascript:").data) h = true then
      .ok none
    else
      match urljoin base h with
      | .error e => .error e
      | .ok a =>
        match urldefragUrl a with
        | .error e => .error e
        | .ok a2 => .ok (some (strip_trailing_slash a2))

/-- `should_ignore_url` (lines 188-189). -/
def should_ignore_url (url : Str) : Bool := containsSub (("/_next/").data) url

/-- `DEFAULT_SKIP_EXT` (lines 84-90). -/
def DEFAULT_SKIP_EXT : List Str :=
  ([".jpg", ".jpeg", ".png", ".gif", ".webp", ".svg", ".ico",
    ".css", ".js", ".mjs", ".map",
    ".woff", ".woff2", ".ttf", ".eot",
    ".mp4", ".mov", ".webm", ".mp3", ".wav",
    ".pdf", ".zip", ".rar", ".7z"] : List String).map String.data

/-- `has_skipped_extension` (lines 184-186); `urlparse` may raise, which would
propagate out of the caller, hence `Except`. -/
def has_skipped_extension (url : Str) : Except String Bool :=
  match urlparse url [] with
  | .error e => .error e
  | .ok r => .ok (DEFAULT_SKIP_EXT.any (fun ext => endsWithStr ext (lowerStr r.path)))

/-- `same_domain` (lines 191-195); any exception yields `False`. -/
def same_domain (url domain : Str) : Bool :=
  match urlparse url [] with
  | .error _ => false
  | .ok r => lowerStr r.netloc == lowerStr domain

/-! ## Reachability classification (`classify`, `double_check_broken`, `check_url`) -/

/-- `classify` (lines 630-643): map a final status code (None = transport
failure) to a verdict string. -/
def classify (code : Option Int) : String :=
  match code with
  | none => "Broken"
  | some c =>
    if 200 ≤ c ∧ c < 400 then "Active"
    else if c = 404 ∨ c = 410 then "Broken"
    else if c = 401 ∨ c = 403 ∨ c = 429 ∨ c = 999 then "Blocked"
    else if 400 ≤ c ∧ c < 500 then "Broken"
    else if 500 ≤ c then "Broken"
    else "Broken"

/-- `USER_AGENT` (line 62). -/
def USER_AGENT : String := "Mozilla/5.0 (Marble LinkHealthHub Playwright BFS)"

/-- The User-Agent header sent by `check_url` (line 564 of the source:
`"User-Agent": USER_AGENT`). -/
def check_url_header_user_agent : String := USER_AGENT

/-- The User-Agent used by the re-probe inside `double_check_broken`
(line 650): the retry simply calls `check_url` again, so it carries the same
header as the first probe. -/
def double_check_retry_user_agent : String := check_url_header_user_agent

/-- `double_check_broken` (lines 645-654).  The single network re-probe
(`check_url(url)` on line 650) is passed in as `retry`. -/
def double_check_broken (retry : Option Int × Option String) (c1 : Option Int)
    (e1 : Option String) : Option Int × Option String × String :=
  let r1 := classify c1
  if r1 ≠ "Broken" then (c1, e1, r1)
  else
    let r2 := classify retry.1
    if r2 ≠ "Broken" then (retry.1, retry.2, r2)
    else (c1, e1, r1)

/-- `check_page_alive` (lines 656-663): aliveness is decided by a plain HTTP
GET, `resp` being its outcome (status code or a transport exception name). -/
def check_page_alive (resp : Except String Int) : Bool × Option Int × Option String :=
  match resp with
  | .ok code => (decide (200 ≤ code ∧ code < 400), some code, none)
  | .error e => (false, none, some e)

/-- Outcome of the oracle lookup `POST /api/v3/getPublicPageData`
(lines 572-585): `failed` covers a raised request exception or an unparsable
body (both swallowed by `except Exception: pass`); `response ok role` covers a
parsed JSON answer, `role = none` meaning the `publicAccessRole` key is
absent or null. -/
inductive OracleResult where
  | failed
  | response (ok : Bool) (role : Option String)
deriving DecidableEq, Repr

deriving instance DecidableEq for Except

/-- Network environment for one `check_url` call: the oracle outcome, the GET
outcome (status code plus body text, `none` body if reading `.text` raised)
and the fallback HEAD outcome.  Errors carry the exception type name. -/
structure ProbeEnv where
  oracle : OracleResult
  get : Except String (Int × Option Str)
  head : Except String Int
deriving DecidableEq, Repr

/-- The character class `[0-9a-fA-F]` of the block-id regex (line 557). -/
def isHexChar (c : Char) : Bool :=
  ('0' ≤ c ∧ c ≤ '9') ∨ ('a' ≤ c ∧ c ≤ 'f') ∨ ('A' ≤ c ∧ c ≤ 'F')

/-- Lines 556-561: strip all non-hex characters from the URL and look for a
run of 32 hex characters; after the filtering the whole string is hex, so a
match exists iff at least 32 hex characters remain. -/
def hasNotionBlockId (url : Str) : Bool := 32 ≤ (url.filter isHexChar).length

/-- Lines 548-551: `netloc = urlparse(url).netloc.lower()`, any exception
leaving `netloc = ""`. -/
def netloc_lower (url : Str) : Str :=
  match urlparse url [] with
  | .error _ => []
  | .ok r => lowerStr r.netloc

/-- Line 553: the URL belongs to the hosted-document provider. -/
def wantsNotionBody (url : Str) : Bool :=
  endsWithStr (("notion.site").data) (netloc_lower url) ||
  endsWithStr (("notion.so").data) (netloc_lower url)

/-- Lines 597-606: look for the provider's not-found marker in the first 4000
characters of the lowered body (`none` body means reading `.text` raised and
`text` stays empty). -/
def notionNotFoundMarker (body : Option Str) : Bool :=
  let text := match body with | none => ([] : Str) | some b => lowerStr (b.take 4000)
  containsSub (("couldn\x27t find the page").data) text ||
  containsSub (("couldnt find the page").data) text

/-- Lines 572-583: the oracle short-circuits to 401 only when the request
succeeded (`api_resp.ok`) and the parsed role is null, empty or "none". -/
def oracleForcesAuth : OracleResult → Bool
  | .failed => false
  | .response ok role =>
    ok && (role == none || role == some ("") || role == some ("none"))

/-- `check_url` (lines 539-628), with the network effects supplied by `env`. -/
def check_url (url : Str) (env : ProbeEnv) : Option Int × Option String :=
  let want_body := wantsNotionBody url
  let hasId := want_body && hasNotionBlockId url
  if hasId && oracleForcesAuth env.oracle then
    (some 401, some ("notion_private_or_login_required"))
  else
    match env.get with
    | .ok (code, body) =>
      if want_body && notionNotFoundMarker body then
        (some 404, some ("notion_page_not_found"))
      else (some code, none)
    | .error e_get =>
      match env.head with
      | .ok code => (some code, some e_get)
      | .error e_head => (none, some e_head)

/-! ## Page visit, extraction and status (`main`, `upsert_db_a`) -/

/-- An extracted anchor as consumed by the BFS enqueue loop (lines 1064-1077
only read the `href` field). -/
structure LinkItem where
  href : Str
deriving DecidableEq, Repr

/-- Outcome of the Playwright navigation (lines 1038-1059): success with a
title and the collected anchors, or a timeout / other exception. -/
inductive NavOutcome where
  | ok (title : String) (links : List LinkItem)
  | timeout
  | crashed
deriving DecidableEq, Repr

/-- The anchors available after navigation: `merged` stays `[]` when
`page.goto` raised (lines 1036, 1054-1059). -/
def merged_links : NavOutcome → List LinkItem
  | .ok _ ls => ls
  | .timeout => []
  | .crashed => []

/-- `page_ok_for_extract` (lines 1034, 1054-1059). -/
def page_ok_for_extract : NavOutcome → Bool
  | .ok _ _ => true
  | .timeout => false
  | .crashed => false

/-- The Status value written by `upsert_db_a` (lines 821-827): `Broken` if the
page is not alive, else `Need Review` with broken links, else `Active`. -/
def dba_status (page_alive : Bool) (broken_count : Nat) : String :=
  if ¬page_alive then "Broken"
  else if broken_count > 0 then "Need Review"
  else "Active"

/-- `broken_in_page` (lines 1090, 1150-1151): number of processed links whose
verdict is `Broken`; the per-link verdict is abstracted as `verdict`. -/
def broken_in_page (verdict : LinkItem → String) (links : List LinkItem) : Nat :=
  (links.filter (fun it => verdict it == "Broken")).length

/-! ## Record reconciliation (`upsert_db_a`, `upsert_db_b`) -/

/-- Result of a DB A upsert: the page id, the updated prefetched index, whether
a record was created, and the Status value written. -/
structure UpsertAResult where
  id : String
  index : List (Str × String)
  created : Bool
  status_written : String
deriving DecidableEq, Repr

/-- `upsert_db_a` (lines 801-848): key on the slash-stripped URL, patch the
record found in the prefetched index, otherwise create and record the new id
under the key.  (The property-bag assembly and select-option registration,
lines 815-840, only shape the written fields and are not modelled.) -/
def upsert_db_a (idx : List (Str × String)) (freshId : String) (page_url : Str)
    (page_alive : Bool) (broken_count : Nat) : UpsertAResult :=
  let key := strip_trailing_slash page_url
  let status_val := dba_status page_alive broken_count
  match List.lookup key idx with
  | some pid => ⟨pid, idx, false, status_val⟩
  | none => ⟨freshId, idx ++ [(key, freshId)], true, status_val⟩

/-- One entry of the prefetched DB B index (`build_db_b_index`, lines 516-533). -/
structure OccEntry where
  id : String
  result : Option String
  has_link_type : Bool
  has_dom_area : Bool
deriving DecidableEq, Repr

/-- Replace the value stored under `k` (Python mutates the dict entry in
place). -/
def updateAssoc (idx : List (Str × OccEntry)) (k : Str) (v : OccEntry) :
    List (Str × OccEntry) :=
  match idx with
  | [] => []
  | (k', v') :: rest =>
    if k' = k then (k, v) :: rest else (k', v') :: updateAssoc rest k v

/-- Result of a DB B upsert: the `newly_broken` flag, the updated index,
whether any record write (create or patch) was issued, and the id of a created
record if one was created. -/
structure UpsertBResult where
  newlyBroken : Bool
  index : List (Str × OccEntry)
  wrote : Bool
  created : Option String
deriving DecidableEq, Repr

/-- The occurrence identity key (line 882): `source_page_url + " | " + link_url`. -/
def finding_key (source_page_url link_url : Str) : Str :=
  source_page_url ++ (" | ").data ++ link_url

/-- `upsert_db_b` (lines 863-958): decision logic and index maintenance.
`schemaHasLinkType` / `schemaHasDomArea` model `resolve_prop` on the two
optional columns (lines 943-946).  The property-bag assembly (lines 903-936)
only shapes the written fields and is not modelled; note that on the no-write
path the function returns (line 901) before any of it runs. -/
def upsert_db_b (FORCE_TOUCH_EXISTING BACKFILL_MISSING : Bool)
    (schemaHasLinkType schemaHasDomArea : Bool)
    (idx : List (Str × OccEntry)) (freshId : String)
    (source_page_url link_url : Str) (result_val : String) : UpsertBResult :=
  let fk := finding_key source_page_url link_url
  let existing := List.lookup fk idx
  let prev_result : Option String :=
    match existing with
    | some ex => ex.result
    | none => none
  let newly_broken := result_val == "Broken" && !(prev_result == some ("Broken"))
  match existing with
  | some ex =>
    let should_write :=
      !(prev_result == some result_val) || FORCE_TOUCH_EXISTING ||
      (BACKFILL_MISSING && (!ex.has_link_type || !ex.has_dom_area))
    if should_write then
      let ex' : OccEntry :=
        { id := ex.id
          result := some result_val
          has_link_type := if schemaHasLinkType then true else ex.has_link_type
          has_dom_area := if schemaHasDomArea then true else ex.has_dom_area }
      ⟨newly_broken, updateAssoc idx fk ex', true, none⟩
    else ⟨newly_broken, idx, false, none⟩
  | none =>
    ⟨newly_broken, idx ++ [(fk, ⟨freshId, some result_val, true, true⟩)],
      true, some freshId⟩

/-! ## BFS expansion (`main`, lines 1063-1077) -/

/-- Run state of the BFS loop: frontier queue, parent map and visited set. -/
structure BfsState where
  queue : List Str
  parent : List (Str × Option Str)
  seen : List Str
deriving DecidableEq, Repr

/-- Lines 1074-1075: record a parent edge only when the URL has no entry yet
(first discoverer wins). -/
def recordParent (parent : List (Str × Option Str)) (absu page_url : Str) :
    List (Str × Option Str) :=
  match List.lookup absu parent with
  | some _ => parent
  | none => parent ++ [(absu, some page_url)]

/-- One iteration of the enqueue loop (lines 1064-1077): normalize the href,
strip the trailing slash, drop the query, filter, then record the parent edge
and enqueue if unseen.  An exception from the URL helpers would escape `main`,
hence `Except`. -/
def processLink (domain page_url : Str) (st : BfsState) (it : LinkItem) :
    Except String BfsState :=
  match normalize_url page_url it.href with
  | .error e => .error e
  | .ok none => .ok st
  | .ok (some absu0) =>
    match drop_query (strip_trailing_slash absu0) with
    | .error e => .error e
    | .ok absu =>
      if should_ignore_url absu then .ok st
      else
        match has_skipped_extension absu with
        | .error e => .error e
        | .ok true => .ok st
        | .ok false =>
          if same_domain absu domain then
            .ok { queue := if absu ∈ st.seen then st.queue else st.queue ++ [absu]
                  parent := recordParent st.parent absu page_url
                  seen := st.seen }
          else .ok st

/-- The whole enqueue loop over the extracted anchors of one page. -/
def processLinks (domain page_url : Str) (st : BfsState) (its : List LinkItem) :
    Except String BfsState :=
  its.foldlM (processLink domain page_url) st

/-- The canonical key under which the BFS visits a dequeued page
(`main` lines 1015-1016: `strip_trailing_slash` then `drop_query`). -/
def pageCanon (u : Str) : Except String Str :=
  drop_query (strip_trailing_slash u)

/-- The canonical key of a link target in the enqueue and link loops
(`main` lines 1064-1069 and 1094-1099: `normalize_url`, then
`strip_trailing_slash`, then `drop_query`; a falsy normalization result skips
the link, modelled as `none`). -/
def linkTargetCanon (base href : Str) : Except String (Option Str) :=
  match normalize_url base href with
  | .error e => .error e
  | .ok none => .ok none
  | .ok (some u) =>
    match drop_query (strip_trailing_slash u) with
    | .error e => .error e
    | .ok v => .ok (some v)

/-! ## Claims C3, C4, C5, C7 -/

/-- Claim C3: for every final probe outcome, `classify` maps the status code
to exactly one verdict: 200-399 to Active; 404 and 410 to Broken; 401, 403,
429 and the vendor sentinel 999 to Blocked; any other 4xx to Broken; any 5xx
to Broken; a null code (transport failure) to Broken. -/
theorem claim_C3 (code : Option Int) :
    (∀ c : Int, code = some c → 200 ≤ c → c < 400 → classify code = "Active") ∧
    (code = some 404 ∨ code = some 410 → classify code = "Broken") ∧
    (code = some 401 ∨ code = some 403 ∨ code = some 429 ∨ code = some 999 →
      classify code = "Blocked") ∧
    (∀ c : Int, code = some c → 400 ≤ c → c < 500 → c ≠ 404 → c ≠ 410 → c ≠ 401 →
      c ≠ 403 → c ≠ 429 → classify code = "Broken") ∧
    (∀ c : Int, code = some c → 500 ≤ c → c < 600 → classify code = "Broken") ∧
    (code = none → classify code = "Broken") := by
  refine ⟨?_, ?_, ?_, ?_, ?_, ?_⟩
  · rintro c rfl h1 h2
    simp only [classify]
    rw [if_pos ⟨h1, h2⟩]
  · rintro (rfl | rfl) <;> decide
  · rintro (rfl | rfl | rfl | rfl) <;> decide
  · rintro c rfl h1 h2 h3 h4 h5 h6 h7
    simp only [classify]
    split_ifs <;> first | rfl | omega
  · rintro c rfl h1 h2
    simp only [classify]
    split_ifs <;> first | rfl | omega
  · rintro rfl; decide

theorem claim_C3_witness :
    classify (some 200) = "Active" ∧ classify (some 404) = "Broken" ∧
    classify (some 999) = "Blocked" ∧ classify (some 418) = "Broken" ∧
    classify (some 503) = "Broken" ∧ classify none = "Broken" :=
  ⟨(claim_C3 (some 200)).1 200 rfl (by decide) (by decide),
   (claim_C3 (some 404)).2.1 (Or.inl rfl),
   (claim_C3 (some 999)).2.2.1 (Or.inr (Or.inr (Or.inr rfl))),
   (claim_C3 (some 418)).2.2.2.1 418 rfl (by decide) (by decide) (by decide)
     (by decide) (by decide) (by decide) (by decide),
   (claim_C3 (some 503)).2.2.2.2.1 503 rfl (by decide) (by decide),
   (claim_C3 none).2.2.2.2.2 rfl⟩

/-- Claim C4: for every occurrence upsert, the returned `newlyBroken` flag is
true iff the new verdict is Broken and the previously recorded verdict for the
finding key (or the absence of any prior record) is not Broken; in particular
it is false when the previous verdict is already Broken, even if the record is
written again. -/
theorem claim_C4 (FORCE BACKFILL hlt hda : Bool) (idx : List (Str × OccEntry))
    (freshId : String) (source_page_url link_url : Str) (result_val : String) :
    (upsert_db_b FORCE BACKFILL hlt hda idx freshId source_page_url link_url
        result_val).newlyBroken
      = (result_val == "Broken" &&
         !((match List.lookup (finding_key source_page_url link_url) idx with
            | some ex => ex.result
            | none => (none : Option String)) == some ("Broken"))) := by
  unfold upsert_db_b
  cases hx : List.lookup (finding_key source_page_url link_url) idx with
  | none => simp [hx]
  | some ex =>
    simp only [hx]
    split <;> rfl

/-- Claim C5: when an occurrence record exists, its previous verdict equals
the new verdict, force-refresh is off, and no backfill applies, `upsert_db_b`
performs no record-store write, leaves the index unchanged and returns
`newlyBroken = false`. -/
theorem claim_C5 (FORCE BACKFILL hlt hda : Bool) (idx : List (Str × OccEntry))
    (freshId : String) (source_page_url link_url : Str) (result_val : String)
    (ex : OccEntry)
    (hex : List.lookup (finding_key source_page_url link_url) idx = some ex)
    (hsame : ex.result = some result_val)
    (hforce : FORCE = false)
    (hback : BACKFILL = false ∨ (ex.has_link_type = true ∧ ex.has_dom_area = true)) :
    upsert_db_b FORCE BACKFILL hlt hda idx freshId source_page_url link_url result_val
      = ⟨false, idx, false, none⟩ := by
  have hnb : (result_val == "Broken" && !(ex.result == some ("Broken"))) = false := by
    by_cases h : result_val = "Broken"
    · subst h; simp [hsame]
    · simp [beq_iff_eq, h]
  have hbf : (BACKFILL && (!ex.has_link_type || !ex.has_dom_area)) = false := by
    rcases hback with h | ⟨h1, h2⟩
    · simp [h]
    · simp [h1, h2]
  unfold upsert_db_b
  simp only [hex, hsame, hforce, hbf]
  simp [hnb, hsame]

theorem claim_C5_witness :
    upsert_db_b false true true true
        [((("a | b").data), ⟨"id0", some ("Active"), true, true⟩)]
        "fresh" (("a").data) (("b").data) "Active"
      = ⟨false, [((("a | b").data), ⟨"id0", some ("Active"), true, true⟩)], false, none⟩ :=
  claim_C5 false true true true
    [((("a | b").data), ⟨"id0", some ("Active"), true, true⟩)]
    "fresh" (("a").data) (("b").data) "Active" ⟨"id0", some ("Active"), true, true⟩
    (by decide) rfl rfl (Or.inr ⟨rfl, rfl⟩)

/-- Claim C7 (amended): `double_check_broken` re-probes exactly once iff the
first probe classifies as Broken (when the first verdict is not Broken the
result does not depend on the retry outcome at all); it returns the retry's
`(code, error, verdict)` when the retry verdict is non-Broken and otherwise
the first probe's triple; the re-probe, however, uses the same
`USER_AGENT` as the first probe, not an alternate one. -/
theorem claim_C7_amended (retry : Option Int × Option String) (c1 : Option Int)
    (e1 : Option String) :
    (classify c1 ≠ "Broken" → double_check_broken retry c1 e1 = (c1, e1, classify c1)) ∧
    (classify c1 = "Broken" → classify retry.1 ≠ "Broken" →
      double_check_broken retry c1 e1 = (retry.1, retry.2, classify retry.1)) ∧
    (classify c1 = "Broken" → classify retry.1 = "Broken" →
      double_check_broken retry c1 e1 = (c1, e1, "Broken")) ∧
    double_check_retry_user_agent = USER_AGENT := by
  refine ⟨?_, ?_, ?_, rfl⟩
  · intro h; simp [double_check_broken, h]
  · intro h1 h2; simp [double_check_broken, h1, h2]
  · intro h1 h2; simp [double_check_broken, h1, h2]

theorem claim_C7_amended_witness :
    double_check_broken (some 200, none) (some 500) none
      = (some 200, none, classify (some 200)) ∧
    double_check_broken (some 200, none) (some 201) none
      = (some 201, none, classify (some 201)) :=
  ⟨(claim_C7_amended (some 200, none) (some 500) none).2.1 (by decide) (by decide),
   (claim_C7_amended (some 200, none) (some 201) none).1 (by decide)⟩

/-- Claim C7 counterexample: the claim states the re-probe is issued "with an
alternate user agent string"; in the code the retry is a plain second
`check_url(url)` call, whose request headers carry the very same `USER_AGENT`
constant as the first probe, so the alternate-user-agent part of the claim is
false. -/
theorem claim_C7_counterexample :
    double_check_retry_user_agent = USER_AGENT ∧
    check_url_header_user_agent = USER_AGENT :=
  ⟨rfl, rfl⟩

/-! ## Association-list lemmas -/

theorem lookupAppend {α β : Type} [BEq α] (k : α) (l1 l2 : List (α × β)) :
    List.lookup k (l1 ++ l2)
      = match List.lookup k l1 with
        | some v => some v
        | none => List.lookup k l2 := by
  induction l1 with
  | nil => rfl
  | cons hd tl ih =>
    obtain ⟨a, b⟩ := hd
    simp only [List.cons_append, List.lookup]
    cases k == a with
    | true => rfl
    | false => exact ih

theorem lookupAppendLeft {α β : Type} [BEq α] {k : α} {v : β} {l1 : List (α × β)}
    (l2 : List (α × β)) (h : List.lookup k l1 = some v) :
    List.lookup k (l1 ++ l2) = some v := by
  rw [lookupAppend, h]

theorem lookupAppendSingle {α β : Type} [BEq α] [LawfulBEq α] {k : α} {l : List (α × β)}
    (v : β) (h : List.lookup k l = none) :
    List.lookup k (l ++ [(k, v)]) = some v := by
  rw [lookupAppend, h]
  simp [List.lookup]

theorem updateAssocLookup {idx : List (Str × OccEntry)} {k : Str} {ex : OccEntry}
    (v : OccEntry) (h : List.lookup k idx = some ex) :
    List.lookup k (updateAssoc idx k v) = some v := by
  induction idx with
  | nil => cases h
  | cons hd tl ih =>
    obtain ⟨a, b⟩ := hd
    simp only [List.lookup] at h
    unfold updateAssoc
    by_cases hk : a = k
    · subst hk
      simp [List.lookup]
    · rw [if_neg hk]
      simp only [List.lookup]
      cases hkk : k == a with
      | true => exact absurd (eq_of_beq hkk).symm hk
      | false =>
        rw [hkk] at h
        exact ih h

/-! ## Claim C6 -/

/-- Claim C6: within one run each identity key (slash-stripped page URL for
collection A, `source | target` finding key for collection B) names at most
one record: a record is created only when the key is absent from the
prefetched index, the created id is immediately recorded under the key, and
an upsert that finds the key patches the already-recorded record (same id, no
create), so later upserts with the same key never create a duplicate. -/
theorem claim_C6 :
    (∀ (idx : List (Str × String)) (freshId : String) (page_url : Str)
        (alive : Bool) (bc : Nat) (pid : String),
        List.lookup (strip_trailing_slash page_url) idx = some pid →
        (upsert_db_a idx freshId page_url alive bc).created = false ∧
        (upsert_db_a idx freshId page_url alive bc).index = idx ∧
        (upsert_db_a idx freshId page_url alive bc).id = pid) ∧
    (∀ (idx : List (Str × String)) (freshId : String) (page_url : Str)
        (alive : Bool) (bc : Nat),
        List.lookup (strip_trailing_slash page_url) idx = none →
        (upsert_db_a idx freshId page_url alive bc).created = true ∧
        (upsert_db_a idx freshId page_url alive bc).id = freshId ∧
        List.lookup (strip_trailing_slash page_url)
          (upsert_db_a idx freshId page_url alive bc).index = some freshId) ∧
    (∀ (F B hlt hda : Bool) (idx : List (Str × OccEntry)) (freshId : String)
        (sp lu : Str) (rv : String) (ex : OccEntry),
        List.lookup (finding_key sp lu) idx = some ex →
        (upsert_db_b F B hlt hda idx freshId sp lu rv).created = none ∧
        (List.lookup (finding_key sp lu)
          (upsert_db_b F B hlt hda idx freshId sp lu rv).index).map OccEntry.id
          = some ex.id) ∧
    (∀ (F B hlt hda : Bool) (idx : List (Str × OccEntry)) (freshId : String)
        (sp lu : Str) (rv : String),
        List.lookup (finding_key sp lu) idx = none →
        (upsert_db_b F B hlt hda idx freshId sp lu rv).created = some freshId ∧
        (List.lookup (finding_key sp lu)
          (upsert_db_b F B hlt hda idx freshId sp lu rv).index).map OccEntry.id
          = some freshId) := by
  refine ⟨?_, ?_, ?_, ?_⟩
  · intro idx freshId page_url alive bc pid h
    simp [upsert_db_a, h]
  · intro idx freshId page_url alive bc h
    have h2 := lookupAppendSingle freshId h
    simp [upsert_db_a, h, h2]
  · intro F B hlt hda idx freshId sp lu rv ex h
    simp only [upsert_db_b, h]
    split
    · refine ⟨by trivial, ?_⟩
      rw [updateAssocLookup _ h]
      rfl
    · refine ⟨by trivial, ?_⟩
      rw [h]
      rfl
  · intro F B hlt hda idx freshId sp lu rv h
    simp only [upsert_db_b, h]
    refine ⟨by trivial, ?_⟩
    rw [lookupAppendSingle _ h]
    rfl

theorem claim_C6_witness :
    (upsert_db_a [] "pid" (("https://example.com/p").data) true 0).created = true ∧
    List.lookup (("https://example.com/p").data)
      (upsert_db_a [] "pid" (("https://example.com/p").data) true 0).index = some "pid" ∧
    (upsert_db_b true true true true
        [((("a | b").data), ⟨"id0", some ("Active"), true, true⟩)]
        "fresh" (("a").data) (("b").data) "Broken").created = none ∧
    (List.lookup ((("a | b").data))
      (upsert_db_b true true true true
        [((("a | b").data), ⟨"id0", some ("Active"), true, true⟩)]
        "fresh" (("a").data) (("b").data) "Broken").index).map OccEntry.id
      = some "id0" := by
  have h1 := (claim_C6.2.1) [] "pid" (("https://example.com/p").data) true 0 (by decide)
  have h2 := (claim_C6.2.2.1) true true true true
    [((("a | b").data), ⟨"id0", some ("Active"), true, true⟩)]
    "fresh" (("a").data) (("b").data) "Broken" ⟨"id0", some ("Active"), true, true⟩
    (by decide)
  exact ⟨h1.1, h1.2.2, h2.1, h2.2⟩

/-! ## Claim C2 -/

/-- Claim C2 counterexample: a page whose navigation times out but whose HTTP
probe returns 200 is marked alive, zero links are extracted, and the Status
written for it is `Active`, not `Broken` - the claim that a navigation failure
marks the page not alive and forces status `Broken` is false on the code
(aliveness is decided by `check_page_alive`, not by Playwright). -/
theorem claim_C2_counterexample :
    merged_links NavOutcome.timeout = [] ∧
    (check_page_alive (.ok 200)).1 = true ∧
    broken_in_page (fun _ => "Broken") (merged_links NavOutcome.timeout) = 0 ∧
    (upsert_db_a [] "pid" (("https://example.com/p").data)
        (check_page_alive (.ok 200)).1
        (broken_in_page (fun _ => "Broken") (merged_links NavOutcome.timeout))).status_written
      = "Active" ∧
    (upsert_db_a [] "pid" (("https://example.com/p").data)
        (check_page_alive (.ok 200)).1
        (broken_in_page (fun _ => "Broken") (merged_links NavOutcome.timeout))).status_written
      ≠ "Broken" := by
  refine ⟨rfl, by decide, rfl, by decide, by decide⟩

/-- Claim C2 (amended): when navigation fails (timeout or crash), zero links
are extracted from the page (so its broken-link count is zero) and the run
continues; the page's aliveness - and hence its record Status - is decided
solely by the separate HTTP GET probe: `Broken` iff the probe failed or
returned a status outside 200-399, `Active` otherwise. -/
theorem claim_C2_amended (nav : NavOutcome) (resp : Except String Int)
    (hnav : page_ok_for_extract nav = false) (verdict : LinkItem → String)
    (idx : List (Str × String)) (freshId : String) (page_url : Str) :
    merged_links nav = [] ∧
    broken_in_page verdict (merged_links nav) = 0 ∧
    (upsert_db_a idx freshId page_url (check_page_alive resp).1
        (broken_in_page verdict (merged_links nav))).status_written
      = (if (check_page_alive resp).1 then "Active" else "Broken") := by
  have hm : merged_links nav = [] := by
    cases nav with
    | ok t ls => exact absurd hnav (by simp [page_ok_for_extract])
    | timeout => rfl
    | crashed => rfl
  refine ⟨hm, by rw [hm]; rfl, ?_⟩
  rw [hm]
  have hb : broken_in_page verdict [] = 0 := rfl
  rw [hb]
  cases hl : List.lookup (strip_trailing_slash page_url) idx with
  | none =>
    simp only [upsert_db_a, hl, dba_status]
    cases h : (check_page_alive resp).1 <;> simp [h]
  | some pid =>
    simp only [upsert_db_a, hl, dba_status]
    cases h : (check_page_alive resp).1 <;> simp [h]

theorem claim_C2_amended_witness :
    merged_links NavOutcome.crashed = [] ∧
    broken_in_page (fun _ => "Broken") (merged_links NavOutcome.crashed) = 0 ∧
    (upsert_db_a [] "pid" (("https://example.com/p").data)
        (check_page_alive (.error "ReadTimeout")).1
        (broken_in_page (fun _ => "Broken") (merged_links NavOutcome.crashed))).status_written
      = (if (check_page_alive (.error "ReadTimeout")).1 then "Active" else "Broken") :=
  claim_C2_amended NavOutcome.crashed (.error "ReadTimeout") rfl (fun _ => "Broken")
    [] "pid" (("https://example.com/p").data)

/-! ## Claim C8 -/

theorem recordParentKeeps {parent : List (Str × Option Str)} {u : Str} {v : Option Str}
    (a pg : Str) (h : List.lookup u parent = some v) :
    List.lookup u (recordParent parent a pg) = some v := by
  unfold recordParent
  cases List.lookup a parent with
  | some _ => exact h
  | none => exact lookupAppendLeft _ h

theorem recordParentNone {parent : List (Str × Option Str)} {u : Str}
    (a pg : Str) (h : List.lookup u parent = none) :
    List.lookup u (recordParent parent a pg) = none ∨
    List.lookup u (recordParent parent a pg) = some (some pg) := by
  unfold recordParent
  cases List.lookup a parent with
  | some _ => exact Or.inl h
  | none =>
    rw [lookupAppend, h]
    simp only [List.lookup]
    cases u == a with
    | true => exact Or.inr rfl
    | false => exact Or.inl rfl

theorem processLinkCases (domain pu : Str) (st st' : BfsState) (it : LinkItem)
    (h : processLink domain pu st it = .ok st') :
    st' = st ∨ ∃ a, st'.parent = recordParent st.parent a pu ∧ st'.seen = st.seen := by
  unfold processLink at h
  repeat' split at h
  all_goals try (cases h)
  all_goals try (exact Or.inl rfl)
  all_goals exact Or.inr ⟨_, rfl, rfl⟩

theorem processLinkKeeps (domain pu : Str) (st st' : BfsState) (it : LinkItem)
    (h : processLink domain pu st it = .ok st') (u : Str) (v : Option Str)
    (hv : List.lookup u st.parent = some v) :
    List.lookup u st'.parent = some v := by
  rcases processLinkCases domain pu st st' it h with rfl | ⟨a, hp, _⟩
  · exact hv
  · rw [hp]; exact recordParentKeeps a pu hv

theorem processLinkNone (domain pu : Str) (st st' : BfsState) (it : LinkItem)
    (h : processLink domain pu st it = .ok st') (u : Str)
    (hv : List.lookup u st.parent = none) :
    List.lookup u st'.parent = none ∨ List.lookup u st'.parent = some (some pu) := by
  rcases processLinkCases domain pu st st' it h with rfl | ⟨a, hp, _⟩
  · exact Or.inl hv
  · rw [hp]; exact recordParentNone a pu hv

theorem processLinksKeeps (domain pu : Str) (its : List LinkItem) (st st' : BfsState)
    (h : processLinks domain pu st its = .ok st') (u : Str) (v : Option Str)
    (hv : List.lookup u st.parent = some v) :
    List.lookup u st'.parent = some v := by
  induction its generalizing st with
  | nil =>
    have hst : st = st' := Except.ok.inj h
    rw [← hst]; exact hv
  | cons it rest ih =>
    rw [processLinks, List.foldlM] at h
    cases hstep : processLink domain pu st it with
    | error e => rw [hstep] at h; cases h
    | ok st1 =>
      rw [hstep] at h
      exact ih st1 h (processLinkKeeps domain pu st st1 it hstep u v hv)

theorem processLinksNone (domain pu : Str) (its : List LinkItem) (st st' : BfsState)
    (h : processLinks domain pu st its = .ok st') (u : Str)
    (hv : List.lookup u st.parent = none) :
    List.lookup u st'.parent = none ∨ List.lookup u st'.parent = some (some pu) := by
  induction its generalizing st with
  | nil =>
    have hst : st = st' := Except.ok.inj h
    rw [← hst]; exact Or.inl hv
  | cons it rest ih =>
    rw [processLinks, List.foldlM] at h
    cases hstep : processLink domain pu st it with
    | error e => rw [hstep] at h; cases h
    | ok st1 =>
      rw [hstep] at h
      rcases processLinkNone domain pu st st1 it hstep u hv with h1 | h1
      · exact ih st1 h h1
      · exact Or.inr (processLinksKeeps domain pu rest st1 st' h u (some pu) h1)

/-- Claim C8: throughout a run the parent map is a forest rooted at the seed:
the seed is mapped to null and stays so, a parent edge is recorded only when
the URL is not yet in the map (first discoverer wins, `recordParent`), an
entry once present is never overwritten by any later expansion step, and
every entry added during a page's expansion points to that page. -/
theorem claim_C8 :
    (∀ (domain pu : Str) (its : List LinkItem) (st st' : BfsState),
        processLinks domain pu st its = .ok st' →
        ∀ (u : Str) (v : Option Str), List.lookup u st.parent = some v →
          List.lookup u st'.parent = some v) ∧
    (∀ (domain base pu : Str) (q seen : List Str) (its : List LinkItem)
        (st' : BfsState),
        processLinks domain pu ⟨q, [(base, none)], seen⟩ its = .ok st' →
        List.lookup base st'.parent = some none) ∧
    (∀ (domain pu : Str) (its : List LinkItem) (st st' : BfsState),
        processLinks domain pu st its = .ok st' →
        ∀ u : Str, List.lookup u st.parent = none →
          List.lookup u st'.parent = none ∨
          List.lookup u st'.parent = some (some pu)) := by
  refine ⟨?_, ?_, ?_⟩
  · intro domain pu its st st' h u v hv
    exact processLinksKeeps domain pu its st st' h u v hv
  · intro domain base pu q seen its st' h
    refine processLinksKeeps domain pu its _ st' h base none ?_
    simp [List.lookup]
  · intro domain pu its st st' h u hv
    exact processLinksNone domain pu its st st' h u hv

theorem claim_C8_witness :
    List.lookup (("https://example.com").data)
      (BfsState.parent
        ⟨[(("https://example.com/about").data)],
         [((("https://example.com").data), none),
          ((("https://example.com/about").data), some (("https://example.com").data))],
         []⟩)
      = some none ∧
    (List.lookup (("https://nowhere.example").data)
      (BfsState.parent
        ⟨[(("https://example.com/about").data)],
         [((("https://example.com").data), none),
          ((("https://example.com/about").data), some (("https://example.com").data))],
         []⟩)
      = none ∨
     List.lookup (("https://nowhere.example").data)
      (BfsState.parent
        ⟨[(("https://example.com/about").data)],
         [((("https://example.com").data), none),
          ((("https://example.com/about").data), some (("https://example.com").data))],
         []⟩)
      = some (some (("https://example.com").data))) := by
  constructor
  · exact claim_C8.2.1 (("example.com").data) (("https://example.com").data)
      (("https://example.com").data) [] [] [⟨(("/about").data)⟩] _ (by decide)
  · exact claim_C8.2.2 (("example.com").data) (("https://example.com").data)
      [⟨(("/about").data)⟩] ⟨[], [((("https://example.com").data), none)], []⟩ _
      (by decide) (("https://nowhere.example").data) (by decide)

/-! ## Claim C1 -/

/-- Claim C1 counterexample: a hosted-document-provider URL (host
`x.notion.site`, 32-hex block id present) whose oracle lookup is inconclusive
(the request raised, modelled by `OracleResult.failed`) while the underlying
GET returned 200 is classified `Active`: the inconclusive oracle does not
short-circuit, so the claim "never returns verdict Active" is false. -/
theorem claim_C1_counterexample :
    wantsNotionBody (("https://x.notion.site/00112233445566778899aabbccddeeff").data) = true ∧
    hasNotionBlockId (("https://x.notion.site/00112233445566778899aabbccddeeff").data) = true ∧
    oracleForcesAuth OracleResult.failed = false ∧
    check_url (("https://x.notion.site/00112233445566778899aabbccddeeff").data)
        ⟨OracleResult.failed, .ok (200, some []), .ok 200⟩
      = (some 200, none) ∧
    classify (some 200) = "Active" := by
  refine ⟨by decide, by decide, rfl, by decide, by decide⟩

/-- Claim C1 (amended): for hosted-document-provider URLs carrying a block id,
the classifier forces the auth-required code 401 (verdict Blocked) exactly
when the oracle request succeeded and reported a null/empty/"none" public
access role; when the oracle lookup is inconclusive (request error, rate
limit, unparsable body) it does not short-circuit and the verdict falls back
to the GET probe, so a clean 2xx GET does yield Active. -/
theorem claim_C1_amended (url : Str) (env : ProbeEnv)
    (hn : wantsNotionBody url = true) (hid : hasNotionBlockId url = true) :
    (oracleForcesAuth env.oracle = true →
      check_url url env = (some 401, some ("notion_private_or_login_required")) ∧
      classify (some 401) = "Blocked") ∧
    (oracleForcesAuth env.oracle = false →
      ∀ (code : Int) (body : Option Str), env.get = .ok (code, body) →
        notionNotFoundMarker body = false →
        check_url url env = (some code, none) ∧
        (200 ≤ code → code < 300 → classify (check_url url env).1 = "Active")) := by
  constructor
  · intro h
    refine ⟨?_, by decide⟩
    simp [check_url, hn, hid, h]
  · intro h code body hget hm
    have hc : check_url url env = (some code, none) := by
      simp [check_url, hn, hid, h, hget, hm]
    refine ⟨hc, ?_⟩
    intro h1 h2
    rw [hc]
    simp only [classify]
    rw [if_pos ⟨h1, by omega⟩]

theorem claim_C1_amended_witness :
    check_url (("https://x.notion.site/00112233445566778899aabbccddeeff").data)
        ⟨OracleResult.response true none, .ok (200, some []), .ok 200⟩
      = (some 401, some ("notion_private_or_login_required")) ∧
    check_url (("https://x.notion.site/00112233445566778899aabbccddeeff").data)
        ⟨OracleResult.response false none, .ok (200, some []), .ok 200⟩
      = (some 200, none) := by
  constructor
  · exact ((claim_C1_amended (("https://x.notion.site/00112233445566778899aabbccddeeff").data)
      ⟨OracleResult.response true none, .ok (200, some []), .ok 200⟩
      (by decide) (by decide)).1 (by decide)).1
  · exact ((claim_C1_amended (("https://x.notion.site/00112233445566778899aabbccddeeff").data)
      ⟨OracleResult.response false none, .ok (200, some []), .ok 200⟩
      (by decide) (by decide)).2 (by decide) 200 (some []) rfl (by decide)).1


/-! ## String-splitting lemmas -/

theorem splitFirstNone {c : Char} {s : Str} : splitFirst c s = none ↔ c ∉ s := by
  induction s with
  | nil => simp [splitFirst]
  | cons x xs ih =>
    simp only [splitFirst]
    by_cases hx : x = c
    · subst hx; simp
    · rw [if_neg hx]
      cases hs : splitFirst c xs with
      | none =>
        have hnx : c ∉ xs := ih.mp hs
        have hcx : ¬c = x := fun h => hx h.symm
        simp [hnx, hcx]
      | some p =>
        obtain ⟨a, b⟩ := p
        have hcx : c ∈ xs := by
          by_contra hc
          rw [ih.mpr hc] at hs
          cases hs
        simp [hcx]

theorem splitFirstSome {c : Char} {s : Str} : ∀ {a b : Str},
    splitFirst c s = some (a, b) ↔ s = a ++ c :: b ∧ c ∉ a := by
  induction s with
  | nil =>
    intro a b
    constructor
    · intro h; cases h
    · rintro ⟨h1, _⟩
      exact absurd h1 (by simp)
  | cons x xs ih =>
    intro a b
    simp only [splitFirst]
    by_cases hx : x = c
    · subst hx
      rw [if_pos rfl]
      constructor
      · intro h
        injection h with h
        injection h with h1 h2
        subst h1; subst h2
        exact ⟨rfl, List.not_mem_nil x⟩
      · rintro ⟨h1, h2⟩
        cases a with
        | nil =>
          simp only [List.nil_append] at h1
          injection h1 with _ h1
          rw [h1]
        | cons y ys =>
          simp only [List.cons_append] at h1
          injection h1 with hy _
          exact absurd (hy ▸ List.mem_cons_self y ys) h2
    · rw [if_neg hx]
      cases hs : splitFirst c xs with
      | none =>
        have hnx : c ∉ xs := splitFirstNone.mp hs
        constructor
        · intro h; cases h
        · rintro ⟨h1, h2⟩
          exfalso
          have hc : c ∈ x :: xs :=
            h1 ▸ List.mem_append.mpr (Or.inr (List.mem_cons_self c b))
          rcases List.mem_cons.mp hc with h | h
          · exact hx h.symm
          · exact hnx h
      | some p =>
        obtain ⟨a', b'⟩ := p
        obtain ⟨hxs, hna⟩ := ih.mp hs
        constructor
        · intro h
          injection h with h
          injection h with h1 h2
          subst h1; subst h2
          refine ⟨by rw [List.cons_append, ← hxs], ?_⟩
          intro hc
          rcases List.mem_cons.mp hc with h | h
          · exact hx h.symm
          · exact hna h
        · rintro ⟨h1, h2⟩
          cases a with
          | nil =>
            simp only [List.nil_append] at h1
            injection h1 with hy _
            exact absurd hy hx
          | cons y ys =>
            simp only [List.cons_append] at h1
            injection h1 with hy htl
            have h2' : c ∉ ys := fun hc => h2 (List.mem_cons_of_mem y hc)
            have := ih.mpr ⟨htl, h2'⟩
            rw [hs] at this
            injection this with this
            injection this with e1 e2
            rw [hy, ← e1, ← e2]

theorem splitFirstAppend {c : Char} {x : Str} (y : Str) (hx : c ∉ x) :
    splitFirst c (x ++ c :: y) = some (x, y) :=
  splitFirstSome.mpr ⟨rfl, hx⟩

theorem takeWhileAppendStop {P : Char → Bool} {x : Str} (hx : ∀ a ∈ x, P a = true)
    {h0 : Char} (hh : P h0 = false) (y : Str) :
    (x ++ h0 :: y).takeWhile P = x ∧ (x ++ h0 :: y).dropWhile P = h0 :: y := by
  induction x with
  | nil => simp [List.takeWhile_cons, List.dropWhile_cons, hh]
  | cons a as ih =>
    have ha : P a = true := hx a (List.mem_cons_self a as)
    have ih' := ih (fun b hb => hx b (List.mem_cons_of_mem a hb))
    simp [List.cons_append, List.takeWhile_cons, List.dropWhile_cons, ha,
      ih'.1, ih'.2]

theorem takeWhileAllOf {P : Char → Bool} {x : Str} (hx : ∀ a ∈ x, P a = true) :
    x.takeWhile P = x ∧ x.dropWhile P = [] := by
  induction x with
  | nil => exact ⟨rfl, rfl⟩
  | cons a as ih =>
    have ha : P a = true := hx a (List.mem_cons_self a as)
    have ih' := ih (fun b hb => hx b (List.mem_cons_of_mem a hb))
    simp [List.takeWhile_cons, List.dropWhile_cons, ha, ih'.1, ih'.2]

theorem firstFailureDecomp {P : Char → Bool} {x : Str}
    (h : ¬(∀ a ∈ x, P a = true)) :
    ∃ pre h0 suf, x = pre ++ h0 :: suf ∧ (∀ a ∈ pre, P a = true) ∧ P h0 = false := by
  induction x with
  | nil => exact absurd (by intro a ha; cases ha) h
  | cons a as ih =>
    cases ha : P a with
    | false =>
      refine ⟨[], a, as, rfl, ?_, ha⟩
      intro b hb
      cases hb
    | true =>
      have has : ¬(∀ b ∈ as, P b = true) := by
        intro hall
        refine h ?_
        intro b hb
        rcases List.mem_cons.mp hb with rfl | hb
        · exact ha
        · exact hall b hb
      obtain ⟨pre, h0, suf, he, hp, h0f⟩ := ih has
      refine ⟨a :: pre, h0, suf, by rw [he, List.cons_append], ?_, h0f⟩
      intro b hb
      rcases List.mem_cons.mp hb with rfl | hb
      · exact ha
      · exact hp b hb

theorem takeWhileAppendOfStop {P : Char → Bool} {x : Str} (y : Str)
    (h : ¬(∀ a ∈ x, P a = true)) :
    (x ++ y).takeWhile P = x.takeWhile P ∧
    (x ++ y).dropWhile P = x.dropWhile P ++ y := by
  obtain ⟨pre, h0, suf, he, hp, h0f⟩ := firstFailureDecomp h
  subst he
  have h1 := takeWhileAppendStop hp h0f (suf ++ y)
  have h2 := takeWhileAppendStop hp h0f suf
  have e : (pre ++ h0 :: suf) ++ y = pre ++ h0 :: (suf ++ y) := by simp
  rw [e, h1.1, h1.2, h2.1, h2.2]
  exact ⟨rfl, rfl⟩

theorem dropLastAppend {y : Str} (x : Str) (hy : y ≠ []) :
    (x ++ y).dropLast = x ++ y.dropLast := by
  induction x with
  | nil => rfl
  | cons a as ih =>
    cases has : as ++ y with
    | nil =>
      exact absurd (List.append_eq_nil.mp has).2 hy
    | cons b bs =>
      rw [List.cons_append, has, List.dropLast_cons₂, ← has, ih, List.cons_append]

theorem getLastAppend {y : Str} (x : Str) (hy : y ≠ []) :
    (x ++ y).getLast? = y.getLast? := by
  induction x with
  | nil => rfl
  | cons a as ih =>
    rw [List.cons_append, List.getLast?_cons, ih]
    cases hny : y.getLast? with
    | none => exact absurd (List.getLast?_eq_none_iff.mp hny) hy
    | some v => rfl

/-! ## Well-formedness of parse results -/

theorem memTakeWhileP {P : Char → Bool} {x : Str} {a : Char}
    (h : a ∈ x.takeWhile P) : P a = true := by
  induction x with
  | nil => cases h
  | cons b bs ih =>
    rw [List.takeWhile_cons] at h
    by_cases hb : P b = true
    · rw [if_pos hb] at h
      rcases List.mem_cons.mp h with rfl | h
      · exact hb
      · exact ih h
    · rw [if_neg hb] at h
      cases h

/-- Structural facts about every successful `urlsplit` result: the netloc has
no `/?#`, the path no `?#`, the query no `#`, and the scheme is either the
passed default or a lowered nonempty run of scheme characters. -/
theorem urlsplit_wf {url d : Str} {r : SplitResult} (h : urlsplit url d = .ok r) :
    ('/' ∉ r.netloc ∧ '?' ∉ r.netloc ∧ '#' ∉ r.netloc) ∧
    ('?' ∉ r.path ∧ '#' ∉ r.path) ∧ ('#' ∉ r.query) ∧
    (r.scheme = d ∨
      ∃ pre, pre ≠ [] ∧ pre.all isSchemeChar = true ∧ r.scheme = lowerStr pre) := by
  unfold urlsplit at h
  set sp := (match splitFirst ':' url with
    | some (pre, post) =>
      if pre ≠ [] ∧ pre.all isSchemeChar then (lowerStr pre, post) else (d, url)
    | none => (d, url)) with hsp
  set rest := sp.2 with hrest
  have hscheme : sp.1 = d ∨
      ∃ pre, pre ≠ [] ∧ pre.all isSchemeChar = true ∧ sp.1 = lowerStr pre := by
    rw [hsp]
    cases splitFirst ':' url with
    | none => exact Or.inl rfl
    | some p =>
      obtain ⟨pre, post⟩ := p
      simp only
      split
      · next hv => exact Or.inr ⟨pre, hv.1, hv.2, rfl⟩
      · next => exact Or.inl rfl
  set nl := (if rest.take 2 = ['/', '/'] then
      ((rest.drop 2).takeWhile netlocChar, (rest.drop 2).dropWhile netlocChar)
    else ([], rest)) with hnl
  have hnet : ∀ a ∈ nl.1, netlocChar a = true := by
    rw [hnl]
    by_cases h2 : rest.take 2 = ['/', '/']
    · rw [if_pos h2]
      intro a ha
      exact memTakeWhileP ha
    · rw [if_neg h2]
      intro a ha
      cases ha
  by_cases hbr : ('[' ∈ nl.1 ∧ ']' ∉ nl.1) ∨ (']' ∈ nl.1 ∧ '[' ∉ nl.1)
  · rw [if_pos hbr] at h
    cases h
  · rw [if_neg hbr] at h
    set rest2 := nl.2 with hrest2
    have hfr : ∀ a f, (match splitFirst '#' rest2 with
        | some (a, f) => (a, f)
        | none => (rest2, ([] : Str))) = (a, f) → '#' ∉ a := by
      intro a f hf
      cases hsf : splitFirst '#' rest2 with
      | none =>
        rw [hsf] at hf
        injection hf with h1 _
        rw [← h1]
        exact splitFirstNone.mp hsf
      | some p =>
        obtain ⟨a', f'⟩ := p
        rw [hsf] at hf
        injection hf with h1 _
        rw [← h1]
        exact (splitFirstSome.mp hsf).2
    set fr := (match splitFirst '#' rest2 with
      | some (a, f) => (a, f)
      | none => (rest2, ([] : Str))) with hfrdef
    have hfr1 : '#' ∉ fr.1 := hfr fr.1 fr.2 rfl
    set pq := (match splitFirst '?' fr.1 with
      | some (a, q) => (a, q)
      | none => (fr.1, ([] : Str))) with hpqdef
    have hpq : ('?' ∉ pq.1 ∧ '#' ∉ pq.1) ∧ '#' ∉ pq.2 := by
      rw [hpqdef]
      cases hsq : splitFirst '?' fr.1 with
      | none =>
        exact ⟨⟨splitFirstNone.mp hsq, hfr1⟩, fun hc => absurd hc (List.not_mem_nil _)⟩
      | some p =>
        obtain ⟨a', q'⟩ := p
        obtain ⟨he, hna⟩ := splitFirstSome.mp hsq
        refine ⟨⟨hna, ?_⟩, ?_⟩
        · intro hc
          exact hfr1 (he ▸ List.mem_append.mpr (Or.inl hc))
        · intro hc
          exact hfr1 (he ▸ List.mem_append.mpr (Or.inr (List.mem_cons_of_mem _ hc)))
    injection h with h
    rw [← h]
    refine ⟨⟨?_, ?_, ?_⟩, hpq.1, hpq.2, hscheme⟩
    · intro hc
      have := hnet _ hc
      simp [netlocChar] at this
    · intro hc
      have := hnet _ hc
      simp [netlocChar] at this
    · intro hc
      have := hnet _ hc
      simp [netlocChar] at this

theorem splitLastNone {c : Char} {s : Str} : splitLast c s = none ↔ c ∉ s := by
  unfold splitLast
  cases hr : splitFirst c s.reverse with
  | none =>
    have h := splitFirstNone.mp hr
    simp only [true_iff]
    intro hc
    exact h (List.mem_reverse.mpr hc)
  | some p =>
    obtain ⟨x, y⟩ := p
    obtain ⟨he, _⟩ := splitFirstSome.mp hr
    simp only
    constructor
    · intro h; cases h
    · intro h
      exfalso
      refine h ?_
      have hm : c ∈ s.reverse := he ▸ List.mem_append.mpr (Or.inr (List.mem_cons_self c y))
      exact List.mem_reverse.mp hm

theorem splitLastSome {c : Char} {s : Str} : ∀ {a b : Str},
    splitLast c s = some (a, b) ↔ s = a ++ c :: b ∧ c ∉ b := by
  intro a b
  unfold splitLast
  cases hr : splitFirst c s.reverse with
  | none =>
    have h := splitFirstNone.mp hr
    constructor
    · intro hh; cases hh
    · rintro ⟨h1, _⟩
      exfalso
      refine h ?_
      rw [h1]
      simp
  | some p =>
    obtain ⟨x, y⟩ := p
    obtain ⟨he, hnx⟩ := splitFirstSome.mp hr
    have hs : s = y.reverse ++ c :: x.reverse := by
      have h0 := congrArg List.reverse he
      rw [List.reverse_reverse] at h0
      rw [h0]
      simp
    constructor
    · intro h
      injection h with h
      injection h with h1 h2
      subst h1; subst h2
      exact ⟨hs, fun hc => hnx (List.mem_reverse.mp hc)⟩
    · rintro ⟨h1, hnb⟩
      have hsr : s.reverse = b.reverse ++ c :: a.reverse := by
        rw [h1]; simp
      have hu := splitFirstSome.mpr ⟨hsr, fun hc => hnb (List.mem_reverse.mp hc)⟩
      rw [hr] at hu
      injection hu with hu
      injection hu with e1 e2
      show some (y.reverse, x.reverse) = some (a, b)
      rw [e1, e2]
      simp

theorem pathPortionNil (p : Str) : pathPortion p [] = p := by
  rw [pathPortion, if_neg]
  intro h
  exact h rfl

theorem pathPortionCons (p : Str) {par : Str} (h : par ≠ []) :
    pathPortion p par = p ++ ';' :: par := by
  rw [pathPortion, if_pos h]

/-- Re-splitting the re-joined output of the params split recovers the same
components (even when the original string ended with a dangling `;` that the
join drops). -/
theorem splitPathParamsStable (σ X : Str) :
    splitPathParams σ
      (pathPortion (splitPathParams σ X).1 (splitPathParams σ X).2)
      = splitPathParams σ X := by
  by_cases hg : σ ∈ uses_params ∧ ';' ∈ X
  · have hX : splitPathParams σ X = splitparamsFn X := by
      rw [splitPathParams, if_pos hg]
    rw [hX]
    by_cases hslash : '/' ∈ X
    · cases hsl : splitLast '/' X with
      | none => exact absurd hslash (splitLastNone.mp hsl)
      | some ab =>
        obtain ⟨a, b⟩ := ab
        obtain ⟨hXd, hnb⟩ := splitLastSome.mp hsl
        cases hsf : splitFirst ';' b with
        | none =>
          have hfn : splitparamsFn X = (X, []) := by
            rw [splitparamsFn, if_pos hslash, hsl]
            simp only [hsf]
          rw [hfn, pathPortionNil, hX, hfn]
        | some b12 =>
          obtain ⟨b1, b2⟩ := b12
          obtain ⟨hb, hnb1⟩ := splitFirstSome.mp hsf
          have hfn : splitparamsFn X = (a ++ '/' :: b1, b2) := by
            rw [splitparamsFn, if_pos hslash, hsl]
            simp only [hsf]
          rw [hfn]
          by_cases hb2 : b2 = []
          · subst hb2
            rw [pathPortionNil]
            by_cases hsemi : ';' ∈ a ++ '/' :: b1
            · rw [splitPathParams, if_pos ⟨hg.1, hsemi⟩]
              have hsl2 : splitLast '/' (a ++ '/' :: b1) = some (a, b1) :=
                splitLastSome.mpr ⟨rfl, fun hc => hnb (hb ▸ List.mem_append.mpr (Or.inl hc))⟩
              rw [splitparamsFn,
                if_pos (List.mem_append.mpr (Or.inr (List.mem_cons_self '/' b1))), hsl2]
              simp only [splitFirstNone.mpr hnb1]
            · rw [splitPathParams, if_neg (fun hh => hsemi hh.2)]
          · rw [pathPortionCons _ hb2]
            have hX2 : (a ++ '/' :: b1) ++ ';' :: b2 = a ++ '/' :: (b1 ++ ';' :: b2) := by
              simp
            have hnoslash : '/' ∉ b1 ++ ';' :: b2 := by
              intro hc
              refine hnb (hb ▸ ?_)
              rcases List.mem_append.mp hc with h | h
              · exact List.mem_append.mpr (Or.inl h)
              · rcases List.mem_cons.mp h with h | h
                · cases h
                · exact List.mem_append.mpr (Or.inr (List.mem_cons_of_mem _ h))
            have hsemi2 : ';' ∈ (a ++ '/' :: b1) ++ ';' :: b2 :=
              List.mem_append.mpr (Or.inr (List.mem_cons_self ';' b2))
            rw [splitPathParams, if_pos ⟨hg.1, hsemi2⟩]
            have hslash2 : '/' ∈ (a ++ '/' :: b1) ++ ';' :: b2 :=
              List.mem_append.mpr
                (Or.inl (List.mem_append.mpr (Or.inr (List.mem_cons_self '/' b1))))
            have hsl2 : splitLast '/' ((a ++ '/' :: b1) ++ ';' :: b2)
                = some (a, b1 ++ ';' :: b2) :=
              splitLastSome.mpr ⟨by rw [hX2], hnoslash⟩
            rw [splitparamsFn, if_pos hslash2, hsl2]
            simp only [splitFirstAppend b2 hnb1]
    · cases hsf : splitFirst ';' X with
      | none => exact absurd hg.2 (splitFirstNone.mp hsf)
      | some p12 =>
        obtain ⟨p1, p2⟩ := p12
        obtain ⟨hXd, hnp1⟩ := splitFirstSome.mp hsf
        have hfn : splitparamsFn X = (p1, p2) := by
          rw [splitparamsFn, if_neg hslash]
          simp only [hsf]
        rw [hfn]
        by_cases hp2 : p2 = []
        · subst hp2
          rw [pathPortionNil]
          rw [splitPathParams, if_neg (fun hh => hnp1 hh.2)]
        · rw [pathPortionCons _ hp2]
          have hsemi2 : ';' ∈ p1 ++ ';' :: p2 :=
            List.mem_append.mpr (Or.inr (List.mem_cons_self ';' p2))
          rw [splitPathParams, if_pos ⟨hg.1, hsemi2⟩]
          have hnoslash : '/' ∉ p1 ++ ';' :: p2 := by
            intro hc
            refine hslash (hXd ▸ ?_)
            rcases List.mem_append.mp hc with h | h
            · exact List.mem_append.mpr (Or.inl h)
            · rcases List.mem_cons.mp h with h | h
              · cases h
              · exact List.mem_append.mpr (Or.inr (List.mem_cons_of_mem _ h))
          rw [splitparamsFn, if_neg hnoslash]
          simp only [splitFirstAppend p2 hnp1]
  · have hX : splitPathParams σ X = (X, []) := by
      rw [splitPathParams, if_neg hg]
    rw [hX, pathPortionNil]
    exact hX

/-- When the string does not end in `;`, the params split is lossless: the
re-join gives back the original string. -/
theorem pathPortionJoin {P : Str} (σ : Str) (hP : P.getLast? ≠ some ';') :
    pathPortion (splitPathParams σ P).1 (splitPathParams σ P).2 = P := by
  by_cases hg : σ ∈ uses_params ∧ ';' ∈ P
  · have hX : splitPathParams σ P = splitparamsFn P := by
      rw [splitPathParams, if_pos hg]
    rw [hX]
    by_cases hslash : '/' ∈ P
    · cases hsl : splitLast '/' P with
      | none => exact absurd hslash (splitLastNone.mp hsl)
      | some ab =>
        obtain ⟨a, b⟩ := ab
        obtain ⟨hPd, hnb⟩ := splitLastSome.mp hsl
        cases hsf : splitFirst ';' b with
        | none =>
          have hfn : splitparamsFn P = (P, []) := by
            rw [splitparamsFn, if_pos hslash, hsl]
            simp only [hsf]
          rw [hfn, pathPortionNil]
        | some b12 =>
          obtain ⟨b1, b2⟩ := b12
          obtain ⟨hb, hnb1⟩ := splitFirstSome.mp hsf
          have hfn : splitparamsFn P = (a ++ '/' :: b1, b2) := by
            rw [splitparamsFn, if_pos hslash, hsl]
            simp only [hsf]
          rw [hfn]
          by_cases hb2 : b2 = []
          · exfalso
            subst hb2
            refine hP ?_
            have hPd2 : P = (a ++ '/' :: b1) ++ [';'] := by
              rw [hPd, hb]; simp
            rw [hPd2, getLastAppend _ (by intro hh; cases hh)]
            rfl
          · rw [pathPortionCons _ hb2, hPd, hb]
            simp
    · cases hsf : splitFirst ';' P with
      | none => exact absurd hg.2 (splitFirstNone.mp hsf)
      | some p12 =>
        obtain ⟨p1, p2⟩ := p12
        obtain ⟨hPd, hnp1⟩ := splitFirstSome.mp hsf
        have hfn : splitparamsFn P = (p1, p2) := by
          rw [splitparamsFn, if_neg hslash]
          simp only [hsf]
        rw [hfn]
        by_cases hp2 : p2 = []
        · exfalso
          subst hp2
          refine hP ?_
          have hPd2 : P = p1 ++ [';'] := hPd
          rw [hPd2, getLastAppend _ (by intro hh; cases hh)]
          rfl
        · rw [pathPortionCons _ hp2, hPd]
  · have hX : splitPathParams σ P = (P, []) := by
      rw [splitPathParams, if_neg hg]
    rw [hX, pathPortionNil]

theorem splitPathParamsFacts (σ p : Str) :
    (∀ c, c ∈ (splitPathParams σ p).1 → c ∈ p) ∧
    (∀ c, c ∈ (splitPathParams σ p).2 → c ∈ p) ∧
    '/' ∉ (splitPathParams σ p).2 := by
  by_cases hg : σ ∈ uses_params ∧ ';' ∈ p
  · have hX : splitPathParams σ p = splitparamsFn p := by
      rw [splitPathParams, if_pos hg]
    rw [hX]
    by_cases hslash : '/' ∈ p
    · cases hsl : splitLast '/' p with
      | none => exact absurd hslash (splitLastNone.mp hsl)
      | some ab =>
        obtain ⟨a, b⟩ := ab
        obtain ⟨hPd, hnb⟩ := splitLastSome.mp hsl
        cases hsf : splitFirst ';' b with
        | none =>
          have hfn : splitparamsFn p = (p, []) := by
            rw [splitparamsFn, if_pos hslash, hsl]
            simp only [hsf]
          rw [hfn]
          exact ⟨fun c hc => hc, fun c hc => absurd hc (List.not_mem_nil c),
            List.not_mem_nil '/'⟩
        | some b12 =>
          obtain ⟨b1, b2⟩ := b12
          obtain ⟨hb, hnb1⟩ := splitFirstSome.mp hsf
          have hfn : splitparamsFn p = (a ++ '/' :: b1, b2) := by
            rw [splitparamsFn, if_pos hslash, hsl]
            simp only [hsf]
          rw [hfn]
          refine ⟨?_, ?_, ?_⟩
          · intro c hc
            rw [hPd, hb]
            rcases List.mem_append.mp hc with h | h
            · exact List.mem_append.mpr (Or.inl h)
            · rcases List.mem_cons.mp h with rfl | h
              · exact List.mem_append.mpr (Or.inr (List.mem_cons_self _ _))
              · exact List.mem_append.mpr
                  (Or.inr (List.mem_cons_of_mem _ (List.mem_append.mpr (Or.inl h))))
          · intro c hc
            rw [hPd, hb]
            exact List.mem_append.mpr
              (Or.inr (List.mem_cons_of_mem _
                (List.mem_append.mpr (Or.inr (List.mem_cons_of_mem _ hc)))))
          · intro hc
            exact hnb (hb ▸ List.mem_append.mpr (Or.inr (List.mem_cons_of_mem _ hc)))
    · cases hsf : splitFirst ';' p with
      | none => exact absurd hg.2 (splitFirstNone.mp hsf)
      | some p12 =>
        obtain ⟨p1, p2⟩ := p12
        obtain ⟨hPd, hnp1⟩ := splitFirstSome.mp hsf
        have hfn : splitparamsFn p = (p1, p2) := by
          rw [splitparamsFn, if_neg hslash]
          simp only [hsf]
        rw [hfn]
        refine ⟨?_, ?_, ?_⟩
        · intro c hc
          rw [hPd]
          exact List.mem_append.mpr (Or.inl hc)
        · intro c hc
          rw [hPd]
          exact List.mem_append.mpr (Or.inr (List.mem_cons_of_mem _ hc))
        · intro hc
          refine hslash (hPd ▸ ?_)
          exact List.mem_append.mpr (Or.inr (List.mem_cons_of_mem _ hc))
  · have hX : splitPathParams σ p = (p, []) := by
      rw [splitPathParams, if_neg hg]
    rw [hX]
    exact ⟨fun c hc => hc, fun c hc => absurd hc (List.not_mem_nil c),
      List.not_mem_nil '/'⟩

theorem urlparse_ok {url d : Str} {r : ParseResult} :
    urlparse url d = .ok r ↔ ∃ sr : SplitResult, urlsplit url d = .ok sr ∧
      r = ⟨sr.scheme, sr.netloc, (splitPathParams sr.scheme sr.path).1,
           (splitPathParams sr.scheme sr.path).2, sr.query, sr.fragment⟩ := by
  unfold urlparse
  cases hs : urlsplit url d with
  | error e =>
    constructor
    · intro h; cases h
    · rintro ⟨sr, h1, _⟩; cases h1
  | ok sr =>
    constructor
    · intro h
      injection h with h
      exact ⟨sr, rfl, h.symm⟩
    · rintro ⟨sr', h1, h2⟩
      injection h1 with h1
      subst h1
      rw [h2]

/-- Structural facts about every successful `urlparse` result, including that
re-splitting the re-joined path portion with the same scheme recovers exactly
the path and params components. -/
theorem urlparse_wf {url d : Str} {r : ParseResult} (h : urlparse url d = .ok r) :
    ('/' ∉ r.netloc ∧ '?' ∉ r.netloc ∧ '#' ∉ r.netloc) ∧
    ('?' ∉ r.path ∧ '#' ∉ r.path) ∧
    ('/' ∉ r.params ∧ '?' ∉ r.params ∧ '#' ∉ r.params) ∧
    '#' ∉ r.query ∧
    (r.scheme = d ∨
      ∃ pre, pre ≠ [] ∧ pre.all isSchemeChar = true ∧ r.scheme = lowerStr pre) ∧
    splitPathParams r.scheme (pathPortion r.path r.params) = (r.path, r.params) := by
  obtain ⟨sr, hsr, rfl⟩ := urlparse_ok.mp h
  obtain ⟨hnet, hpath, hq, hsch⟩ := urlsplit_wf hsr
  obtain ⟨hsub1, hsub2, hnos⟩ := splitPathParamsFacts sr.scheme sr.path
  refine ⟨hnet, ⟨?_, ?_⟩, ⟨hnos, ?_, ?_⟩, hq, hsch, ?_⟩
  · intro hc; exact hpath.1 (hsub1 _ hc)
  · intro hc; exact hpath.2 (hsub1 _ hc)
  · intro hc; exact hpath.1 (hsub2 _ hc)
  · intro hc; exact hpath.2 (hsub2 _ hc)
  · rw [splitPathParamsStable]

theorem takeTwoEq {l : Str} {a b : Char} (h : l.take 2 = [a, b]) :
    l = a :: b :: l.drop 2 := by
  cases l with
  | nil => cases h
  | cons x xs =>
    cases xs with
    | nil => cases h
    | cons y ys =>
      simp only [List.take, List.drop] at h ⊢
      injection h with h1 h2
      injection h2 with h2 _
      rw [h1, h2]

/-- Decomposition of the input of a successful `urlsplit`: the original string
is the concatenation of a scheme part, a netloc part, the path, an optional
`?query` part and an optional `#fragment` part. -/
theorem urlsplit_char {w d : Str} {r : SplitResult} (h : urlsplit w d = .ok r) :
    ∃ S N QF FF,
      w = S ++ N ++ r.path ++ QF ++ FF ∧
      ((S = [] ∧ r.scheme = d) ∨
        (∃ pre, pre ≠ [] ∧ pre.all isSchemeChar = true ∧ r.scheme = lowerStr pre ∧
          S = pre ++ [':'])) ∧
      (N = [] ∧ r.netloc = [] ∨ N = '/' :: '/' :: r.netloc) ∧
      (QF = [] ∧ r.query = [] ∨ QF = '?' :: r.query) ∧
      (FF = [] ∧ r.fragment = [] ∨ FF = '#' :: r.fragment) := by
  unfold urlsplit at h
  set sp := (match splitFirst ':' w with
    | some (pre, post) =>
      if pre ≠ [] ∧ pre.all isSchemeChar then (lowerStr pre, post) else (d, w)
    | none => (d, w)) with hsp
  have hS : ∃ S, w = S ++ sp.2 ∧
      ((S = [] ∧ sp.1 = d) ∨
        (∃ pre, pre ≠ [] ∧ pre.all isSchemeChar = true ∧ sp.1 = lowerStr pre ∧
          S = pre ++ [':'])) := by
    rw [hsp]
    cases hspl : splitFirst ':' w with
    | none => exact ⟨[], rfl, Or.inl ⟨rfl, rfl⟩⟩
    | some p =>
      obtain ⟨pre, post⟩ := p
      obtain ⟨hw, _⟩ := splitFirstSome.mp hspl
      simp only
      split
      · next hv =>
        refine ⟨pre ++ [':'], ?_, Or.inr ⟨pre, hv.1, hv.2, rfl, rfl⟩⟩
        rw [hw]
        simp
      · next => exact ⟨[], rfl, Or.inl ⟨rfl, rfl⟩⟩
  obtain ⟨S, hwS, hSfact⟩ := hS
  set rest := sp.2 with hrest
  set nl := (if rest.take 2 = ['/', '/'] then
      ((rest.drop 2).takeWhile netlocChar, (rest.drop 2).dropWhile netlocChar)
    else ([], rest)) with hnl
  have hN : ∃ N, rest = N ++ nl.2 ∧ (N = [] ∧ nl.1 = [] ∨ N = '/' :: '/' :: nl.1) := by
    rw [hnl]
    by_cases h2 : rest.take 2 = ['/', '/']
    · rw [if_pos h2]
      refine ⟨'/' :: '/' :: (rest.drop 2).takeWhile netlocChar, ?_, Or.inr rfl⟩
      have := takeTwoEq h2
      rw [this]
      simp [List.takeWhile_append_dropWhile]
    · rw [if_neg h2]
      exact ⟨[], rfl, Or.inl ⟨rfl, rfl⟩⟩
  obtain ⟨N, hwN, hNfact⟩ := hN
  by_cases hbr : ('[' ∈ nl.1 ∧ ']' ∉ nl.1) ∨ (']' ∈ nl.1 ∧ '[' ∉ nl.1)
  · rw [if_pos hbr] at h
    cases h
  · rw [if_neg hbr] at h
    set rest2 := nl.2 with hrest2
    set fr := (match splitFirst '#' rest2 with
      | some (a, f) => (a, f)
      | none => (rest2, ([] : Str))) with hfrdef
    have hF : ∃ FF, rest2 = fr.1 ++ FF ∧ (FF = [] ∧ fr.2 = [] ∨ FF = '#' :: fr.2) := by
      rw [hfrdef]
      cases hsf : splitFirst '#' rest2 with
      | none => exact ⟨[], by simp, Or.inl ⟨rfl, rfl⟩⟩
      | some p =>
        obtain ⟨a, f⟩ := p
        obtain ⟨he, _⟩ := splitFirstSome.mp hsf
        exact ⟨'#' :: f, he, Or.inr rfl⟩
    obtain ⟨FF, hwF, hFfact⟩ := hF
    set pq := (match splitFirst '?' fr.1 with
      | some (a, q) => (a, q)
      | none => (fr.1, ([] : Str))) with hpqdef
    have hQ : ∃ QF, fr.1 = pq.1 ++ QF ∧ (QF = [] ∧ pq.2 = [] ∨ QF = '?' :: pq.2) := by
      rw [hpqdef]
      cases hsq : splitFirst '?' fr.1 with
      | none => exact ⟨[], by simp, Or.inl ⟨rfl, rfl⟩⟩
      | some p =>
        obtain ⟨a, q⟩ := p
        obtain ⟨he, _⟩ := splitFirstSome.mp hsq
        exact ⟨'?' :: q, he, Or.inr rfl⟩
    obtain ⟨QF, hwQ, hQfact⟩ := hQ
    injection h with h
    refine ⟨S, N, QF, FF, ?_, ?_, ?_, ?_, ?_⟩
    · rw [hwS, hwN, hwF, hwQ, ← h]
      simp
    · rw [← h]; exact hSfact
    · rw [← h]; exact hNfact
    · rw [← h]; exact hQfact
    · rw [← h]; exact hFfact

theorem hashBeforeQm {A F a b : Str} (hA : '?' ∉ A)
    (hF : F = [] ∨ ∃ f, F = '#' :: f) (hw : A ++ F = a ++ '?' :: b) : '#' ∈ a := by
  rcases hF with rfl | ⟨f, rfl⟩
  · rw [List.append_nil] at hw
    exact absurd (hw ▸ List.mem_append.mpr (Or.inr (List.mem_cons_self '?' b))) hA
  · rcases List.append_eq_append_iff.mp hw with ⟨a', ha1, ha2⟩ | ⟨c', hc1, hc2⟩
    · cases a' with
      | nil =>
        rw [List.nil_append] at ha2
        injection ha2 with h1 _
        exact absurd h1 (by decide)
      | cons x xs =>
        injection ha2 with h1 _
        rw [ha1, ← h1]
        exact List.mem_append.mpr (Or.inr (List.mem_cons_self '#' xs))
    · cases c' with
      | nil =>
        rw [List.nil_append] at hc2
        injection hc2 with h1 _
        exact absurd h1 (by decide)
      | cons y ys =>
        injection hc2 with h1 _
        exfalso
        apply hA
        rw [hc1, ← h1]
        exact List.mem_append.mpr (Or.inr (List.mem_cons_self '?' ys))

theorem urlunsplitShape (scheme netloc path fragment : Str)
    (h1 : '?' ∉ scheme) (h2 : '?' ∉ netloc) (h3 : '?' ∉ path) :
    ∃ A, urlunsplit scheme netloc path [] fragment
        = A ++ (if fragment ≠ [] then '#' :: fragment else []) ∧ '?' ∉ A := by
  have hu1 : '?' ∉ (if netloc ≠ [] ∨ (path ≠ [] ∧ path.take 2 = ['/', '/']) then
      '/' :: '/' :: netloc ++ (if path ≠ [] ∧ path.head? ≠ some '/' then '/' :: path else path)
    else path) := by
    intro hcc
    by_cases hnb : netloc ≠ [] ∨ (path ≠ [] ∧ path.take 2 = ['/', '/'])
    · rw [if_pos hnb] at hcc
      rcases List.mem_cons.mp hcc with h | h
      · exact absurd h (by decide)
      · rcases List.mem_cons.mp h with h | h
        · exact absurd h (by decide)
        · rcases List.mem_append.mp h with h | h
          · exact h2 h
          · by_cases hsl : path ≠ [] ∧ path.head? ≠ some '/'
            · rw [if_pos hsl] at h
              rcases List.mem_cons.mp h with h | h
              · exact absurd h (by decide)
              · exact h3 h
            · rw [if_neg hsl] at h
              exact h3 h
    · rw [if_neg hnb] at hcc
      exact h3 hcc
  have hA : '?' ∉ (if scheme ≠ [] then
      scheme ++ ':' :: (if netloc ≠ [] ∨ (path ≠ [] ∧ path.take 2 = ['/', '/']) then
        '/' :: '/' :: netloc ++ (if path ≠ [] ∧ path.head? ≠ some '/' then '/' :: path else path)
      else path)
    else (if netloc ≠ [] ∨ (path ≠ [] ∧ path.take 2 = ['/', '/']) then
      '/' :: '/' :: netloc ++ (if path ≠ [] ∧ path.head? ≠ some '/' then '/' :: path else path)
    else path)) := by
    intro hcc
    by_cases hsch : scheme ≠ []
    · rw [if_pos hsch] at hcc
      rcases List.mem_append.mp hcc with h | h
      · exact h1 h
      · rcases List.mem_cons.mp h with h | h
        · exact absurd h (by decide)
        · exact hu1 h
    · rw [if_neg hsch] at hcc
      exact hu1 hcc
  refine ⟨_, ?_, hA⟩
  simp only [urlunsplit]
  have hq : ¬(([] : Str) ≠ []) := by simp
  rw [if_neg hq]
  by_cases hf : fragment ≠ []
  · rw [if_pos hf, if_pos hf]
  · rw [if_neg hf, if_neg hf, List.append_nil]

theorem schemePreNoHash {pre : Str} (h : pre.all isSchemeChar = true) : '#' ∉ pre := by
  intro hc
  have := List.all_eq_true.mp h '#' hc
  simp [isSchemeChar] at this

theorem schemePreNoQm {pre : Str} (h : pre.all isSchemeChar = true) : '?' ∉ pre := by
  intro hc
  have := List.all_eq_true.mp h '?' hc
  simp [isSchemeChar] at this

theorem toNatOfNatLt {n : Nat} (h : n < 55296) : (Char.ofNat n).toNat = n := by
  have hv : n.isValidChar := Or.inl h
  unfold Char.ofNat
  rw [dif_pos hv]
  rfl

theorem toLowerEqLow {c x : Char} (hx : x.toNat < 65) (h : c.toLower = x) : c = x := by
  simp only [Char.toLower] at h
  split at h
  · next hn =>
    exfalso
    have h2 := congrArg Char.toNat h
    rw [toNatOfNatLt (by omega)] at h2
    omega
  · exact h

theorem lowerStrNotMem {s : Str} {x : Char} (hx : x.toNat < 65) (hs : x ∉ s) :
    x ∉ lowerStr s := by
  intro hc
  obtain ⟨c, hcs, hlow⟩ := List.mem_map.mp hc
  exact hs (toLowerEqLow hx hlow ▸ hcs)

/-- Any successful re-parse of a `drop_query` output has an empty query
component: the only `?` that can survive `drop_query` sits inside the
fragment. -/
theorem dropQueryEmptyQuery {url r : Str} (h : drop_query url = .ok r)
    {d : Str} {pr : ParseResult} (hpr : urlparse r d = .ok pr) : pr.query = [] := by
  unfold drop_query at h
  cases hp : urlparse url [] with
  | error e => rw [hp] at h; cases h
  | ok r0 =>
    rw [hp] at h
    injection h with h
    obtain ⟨hnet0, hpath0, hpar0, _, hsch0, _⟩ := urlparse_wf hp
    have hs0q : '?' ∉ r0.scheme := by
      rcases hsch0 with h0 | ⟨pre, _, hpre, hlo⟩
      · rw [h0]; exact List.not_mem_nil '?'
      · rw [hlo]; exact lowerStrNotMem (by decide) (schemePreNoQm hpre)
    have hppq : '?' ∉ pathPortion r0.path r0.params := by
      intro hc
      rw [pathPortion] at hc
      by_cases hpe : r0.params ≠ []
      · rw [if_pos hpe] at hc
        rcases List.mem_append.mp hc with hh | hh
        · exact hpath0.1 hh
        · rcases List.mem_cons.mp hh with hh | hh
          · exact absurd hh (by decide)
          · exact hpar0.2.1 hh
      · rw [if_neg hpe] at hc
        exact hpath0.1 hc
    obtain ⟨A, hAeq, hAq⟩ := urlunsplitShape r0.scheme r0.netloc
      (pathPortion r0.path r0.params) r0.fragment hs0q hnet0.2.1 hppq
    have hun : urlunparse ⟨r0.scheme, r0.netloc, r0.path, r0.params, [], r0.fragment⟩
        = urlunsplit r0.scheme r0.netloc (pathPortion r0.path r0.params) [] r0.fragment := rfl
    have hrAF : r = A ++ (if r0.fragment ≠ [] then '#' :: r0.fragment else []) := by
      rw [← h, hun]
      exact hAeq
    have hFsh : (if r0.fragment ≠ [] then '#' :: r0.fragment else ([] : Str)) = [] ∨
        ∃ f, (if r0.fragment ≠ [] then '#' :: r0.fragment else ([] : Str)) = '#' :: f := by
      by_cases hf : r0.fragment ≠ []
      · exact Or.inr ⟨r0.fragment, if_pos hf⟩
      · exact Or.inl (if_neg hf)
    obtain ⟨sr, hsr, hre⟩ := urlparse_ok.mp hpr
    have hq : pr.query = sr.query := by rw [hre]
    rw [hq]
    by_contra hqne
    obtain ⟨S, N, QF, FF, hdec, hSf, hNf, hQf, hFf⟩ := urlsplit_char hsr
    obtain ⟨hwf1, hwf2, _, _⟩ := urlsplit_wf hsr
    rcases hQf with ⟨_, hq0⟩ | hQF
    · exact hqne hq0
    have hr2 : r = (S ++ N ++ sr.path) ++ '?' :: (sr.query ++ FF) := by
      rw [hdec, hQF]
      simp [List.append_assoc]
    have hhash := hashBeforeQm hAq hFsh (hrAF.symm.trans hr2)
    rcases List.mem_append.mp hhash with hh | hh
    · rcases List.mem_append.mp hh with hh | hh
      · rcases hSf with ⟨hS0, _⟩ | ⟨pre, _, hpre, _, hSv⟩
        · rw [hS0] at hh; cases hh
        · rw [hSv] at hh
          rcases List.mem_append.mp hh with hh | hh
          · exact schemePreNoHash hpre hh
          · rcases List.mem_cons.mp hh with hh | hh
            · exact absurd hh (by decide)
            · cases hh
      · rcases hNf with ⟨hN0, _⟩ | hNv
        · rw [hN0] at hh; cases hh
        · rw [hNv] at hh
          rcases List.mem_cons.mp hh with hh | hh
          · exact absurd hh (by decide)
          · rcases List.mem_cons.mp hh with hh | hh
            · exact absurd hh (by decide)
            · exact hwf1.2.2 hh
    · exact hwf2.2 hh

theorem crossSplit {s q pre post : Str} {e c : Char} (hne : e ≠ c) (hcs : c ∉ s)
    (heq : s ++ e :: q = pre ++ c :: post) : e ∈ pre := by
  rcases List.append_eq_append_iff.mp heq with ⟨a', ha1, ha2⟩ | ⟨c', hc1, hc2⟩
  · cases a' with
    | nil =>
      rw [List.nil_append] at ha2
      injection ha2 with h1 _
      exact absurd h1 hne
    | cons x xs =>
      injection ha2 with h1 _
      rw [ha1, ← h1]
      exact List.mem_append.mpr (Or.inr (List.mem_cons_self e xs))
  · cases c' with
    | nil =>
      rw [List.nil_append] at hc2
      injection hc2 with h1 _
      exact absurd h1.symm hne
    | cons y ys =>
      injection hc2 with h1 _
      exfalso
      apply hcs
      rw [hc1, ← h1]
      exact List.mem_append.mpr (Or.inr (List.mem_cons_self c ys))

theorem memDropWhile {P : Char → Bool} {x : Str} {a : Char}
    (h : a ∈ x.dropWhile P) : a ∈ x := by
  induction x with
  | nil => cases h
  | cons b bs ih =>
    rw [List.dropWhile_cons] at h
    by_cases hb : P b = true
    · rw [if_pos hb] at h
      exact List.mem_cons_of_mem b (ih h)
    · rw [if_neg hb] at h
      exact h

theorem memDropLast {x : Str} {a : Char} (h : a ∈ x.dropLast) : a ∈ x :=
  (List.dropLast_sublist x).mem h

/-- The scheme-splitting stage of `urlsplit` is uniform in the query: on an
input `s ++ '?' :: q` it yields a scheme and a remainder `s2 ++ '?' :: q`
where the scheme and `s2` depend only on `s`. -/
theorem spStageQm {s : Str} (d : Str) (hq : '?' ∉ s) (hh : '#' ∉ s) :
    ∃ σ s2, '?' ∉ s2 ∧ '#' ∉ s2 ∧ ∀ q : Str,
      (match splitFirst ':' (s ++ '?' :: q) with
        | some (pre, post) =>
          if pre ≠ [] ∧ pre.all isSchemeChar then (lowerStr pre, post)
          else (d, s ++ '?' :: q)
        | none => (d, s ++ '?' :: q)) = (σ, s2 ++ '?' :: q) := by
  by_cases hcs : ':' ∈ s
  · cases hsp0 : splitFirst ':' s with
    | none => exact absurd hcs (splitFirstNone.mp hsp0)
    | some p =>
      obtain ⟨s1, s2⟩ := p
      obtain ⟨hs_eq, hs1⟩ := splitFirstSome.mp hsp0
      have hsplit : ∀ q : Str, splitFirst ':' (s ++ '?' :: q) = some (s1, s2 ++ '?' :: q) := by
        intro q
        rw [hs_eq]
        have e : (s1 ++ ':' :: s2) ++ '?' :: q = s1 ++ ':' :: (s2 ++ '?' :: q) := by simp
        rw [e]
        exact splitFirstAppend _ hs1
      have hq2 : '?' ∉ s2 := by
        intro hc
        exact hq (hs_eq ▸ List.mem_append.mpr (Or.inr (List.mem_cons_of_mem ':' hc)))
      have hh2 : '#' ∉ s2 := by
        intro hc
        exact hh (hs_eq ▸ List.mem_append.mpr (Or.inr (List.mem_cons_of_mem ':' hc)))
      by_cases hv : s1 ≠ [] ∧ s1.all isSchemeChar
      · refine ⟨lowerStr s1, s2, hq2, hh2, ?_⟩
        intro q
        rw [hsplit q]
        simp only
        rw [if_pos hv]
      · refine ⟨d, s, hq, hh, ?_⟩
        intro q
        rw [hsplit q]
        simp only
        rw [if_neg hv]
  · refine ⟨d, s, hq, hh, ?_⟩
    intro q
    cases hsp0 : splitFirst ':' (s ++ '?' :: q) with
    | none => simp only
    | some p =>
      obtain ⟨pre, post⟩ := p
      obtain ⟨heq, _⟩ := splitFirstSome.mp hsp0
      have hqpre : '?' ∈ pre := crossSplit (by decide) hcs heq
      have hval : ¬(pre ≠ [] ∧ pre.all isSchemeChar) := by
        rintro ⟨_, hall⟩
        have := List.all_eq_true.mp hall '?' hqpre
        simp [isSchemeChar] at this
      simp only
      rw [if_neg hval]

/-- The netloc-splitting stage of `urlsplit` is uniform in the query. -/
theorem nlStageQm {s2 : Str} (hq : '?' ∉ s2) (hh : '#' ∉ s2) :
    ∃ ν s4, '?' ∉ s4 ∧ '#' ∉ s4 ∧ ∀ q : Str,
      (if (s2 ++ '?' :: q).take 2 = ['/', '/'] then
        (((s2 ++ '?' :: q).drop 2).takeWhile netlocChar,
          ((s2 ++ '?' :: q).drop 2).dropWhile netlocChar)
      else ([], s2 ++ '?' :: q)) = (ν, s4 ++ '?' :: q) := by
  cases s2 with
  | nil =>
    refine ⟨[], [], by simp, by simp, ?_⟩
    intro q
    rw [if_neg]
    intro hc
    rw [List.nil_append, List.take_succ_cons] at hc
    injection hc with h1 _
    exact absurd h1 (by decide)
  | cons x s2' =>
    cases s2' with
    | nil =>
      refine ⟨[], [x], fun hc => hq (by simpa using hc), fun hc => hh (by simpa using hc), ?_⟩
      intro q
      rw [if_neg]
      intro hc
      rw [List.cons_append, List.nil_append, List.take_succ_cons, List.take_succ_cons] at hc
      injection hc with _ h2
      injection h2 with h2 _
      exact absurd h2 (by decide)
    | cons y s5 =>
      have hq5 : '?' ∉ s5 := fun hc =>
        hq (List.mem_cons_of_mem x (List.mem_cons_of_mem y hc))
      have hh5 : '#' ∉ s5 := fun hc =>
        hh (List.mem_cons_of_mem x (List.mem_cons_of_mem y hc))
      by_cases hvv : ([x, y] : Str) = ['/', '/']
      · by_cases hall : ∀ a ∈ s5, netlocChar a = true
        · refine ⟨s5, [], by simp, by simp, ?_⟩
          intro q
          have h1 := takeWhileAppendStop hall (show netlocChar '?' = false by decide) q
          rw [if_pos]
          · rw [List.cons_append, List.cons_append, List.drop_succ_cons,
              List.drop_succ_cons, List.drop_zero, h1.1, h1.2]
            rfl
          · rw [List.cons_append, List.cons_append, List.take_succ_cons,
              List.take_succ_cons, List.take_zero]
            exact hvv
        · refine ⟨s5.takeWhile netlocChar, s5.dropWhile netlocChar,
            fun hc => hq5 (memDropWhile hc), fun hc => hh5 (memDropWhile hc), ?_⟩
          intro q
          have h1 := takeWhileAppendOfStop ('?' :: q) hall
          rw [if_pos]
          · rw [List.cons_append, List.cons_append, List.drop_succ_cons,
              List.drop_succ_cons, List.drop_zero, h1.1, h1.2]
          · rw [List.cons_append, List.cons_append, List.take_succ_cons,
              List.take_succ_cons, List.take_zero]
            exact hvv
      · refine ⟨[], x :: y :: s5, hq, hh, ?_⟩
        intro q
        rw [if_neg]
        intro hc
        rw [List.cons_append, List.cons_append, List.take_succ_cons,
          List.take_succ_cons, List.take_zero] at hc
        exact hvv hc

/-- `urlsplit` on `s ++ '?' :: q` is uniform in the query `q`: either it
always succeeds with scheme, netloc and path depending only on `s`, and the
query exactly `q`, or it always fails with the same error. -/
theorem qsplit {s : Str} (d : Str) (hq : '?' ∉ s) (hh : '#' ∉ s) :
    (∃ σ ν π, ∀ q : Str, '#' ∉ q →
        urlsplit (s ++ '?' :: q) d = .ok ⟨σ, ν, π, q, []⟩) ∨
    (∃ e, ∀ q : Str, urlsplit (s ++ '?' :: q) d = .error e) := by
  obtain ⟨σ, s2, hs2q, hs2h, hSP⟩ := spStageQm d hq hh
  obtain ⟨ν, s4, hs4q, hs4h, hNL⟩ := nlStageQm hs2q hs2h
  by_cases hbr : ('[' ∈ ν ∧ ']' ∉ ν) ∨ (']' ∈ ν ∧ '[' ∉ ν)
  · refine Or.inr ⟨("Invalid IPv6 URL" : String), fun q => ?_⟩
    simp only [urlsplit, hSP q, hNL q]
    rw [if_pos hbr]
  · refine Or.inl ⟨σ, ν, s4, fun q hqh => ?_⟩
    have hfr : splitFirst '#' (s4 ++ '?' :: q) = none := by
      refine splitFirstNone.mpr ?_
      intro hc
      rcases List.mem_append.mp hc with h | h
      · exact hs4h h
      · rcases List.mem_cons.mp h with h | h
        · exact absurd h (by decide)
        · exact hqh h
    have hpq : splitFirst '?' (s4 ++ '?' :: q) = some (s4, q) := splitFirstAppend q hs4q
    simp only [urlsplit, hSP q, hNL q, hfr, hpq]
    rw [if_neg hbr]

/-- `urlparse` on `s ++ '?' :: q` is uniform in the query `q`. -/
theorem qparse {s : Str} (d : Str) (hq : '?' ∉ s) (hh : '#' ∉ s) :
    (∃ σ ν p1 p2, ∀ q : Str, '#' ∉ q →
        urlparse (s ++ '?' :: q) d = .ok ⟨σ, ν, p1, p2, q, []⟩) ∨
    (∃ e, ∀ q : Str, urlparse (s ++ '?' :: q) d = .error e) := by
  rcases qsplit d hq hh with ⟨σ, ν, π, hok⟩ | ⟨e, herr⟩
  · refine Or.inl ⟨σ, ν, (splitPathParams σ π).1, (splitPathParams σ π).2,
      fun q hqh => ?_⟩
    unfold urlparse
    rw [hok q hqh]
  · refine Or.inr ⟨e, fun q => ?_⟩
    unfold urlparse
    rw [herr q]

/-- With a nonempty query and no fragment, `urlunsplit` appends `?query` to
its query-free form. -/
theorem urlunsplitQm (scheme netloc path : Str) {q : Str} (hq : q ≠ []) :
    urlunsplit scheme netloc path q [] =
      urlunsplit scheme netloc path [] [] ++ '?' :: q := by
  simp only [urlunsplit]
  have hnil : ¬(([] : Str) ≠ []) := by simp
  rw [if_neg hnil, if_pos hq, if_neg hnil, if_neg hnil]

/-- A character other than `:` and `/` absent from all components is absent
from the query-free, fragment-free `urlunsplit`. -/
theorem urlunsplitNoC (scheme netloc path : Str) {c : Char}
    (h1 : c ∉ scheme) (h2 : c ∉ netloc) (h3 : c ∉ path)
    (hc1 : c ≠ ':') (hc2 : c ≠ '/') :
    c ∉ urlunsplit scheme netloc path [] [] := by
  have hu1 : c ∉ (if netloc ≠ [] ∨ (path ≠ [] ∧ path.take 2 = ['/', '/']) then
      '/' :: '/' :: netloc ++ (if path ≠ [] ∧ path.head? ≠ some '/' then '/' :: path else path)
    else path) := by
    intro hcc
    by_cases hnb : netloc ≠ [] ∨ (path ≠ [] ∧ path.take 2 = ['/', '/'])
    · rw [if_pos hnb] at hcc
      rcases List.mem_cons.mp hcc with h | h
      · exact hc2 h
      · rcases List.mem_cons.mp h with h | h
        · exact hc2 h
        · rcases List.mem_append.mp h with h | h
          · exact h2 h
          · by_cases hsl : path ≠ [] ∧ path.head? ≠ some '/'
            · rw [if_pos hsl] at h
              rcases List.mem_cons.mp h with h | h
              · exact hc2 h
              · exact h3 h
            · rw [if_neg hsl] at h
              exact h3 h
    · rw [if_neg hnb] at hcc
      exact h3 hcc
  intro hcc
  simp only [urlunsplit] at hcc
  have hnil : ¬(([] : Str) ≠ []) := by simp
  rw [if_neg hnil, if_neg hnil] at hcc
  by_cases hsch : scheme ≠ []
  · rw [if_pos hsch] at hcc
    rcases List.mem_append.mp hcc with h | h
    · exact h1 h
    · rcases List.mem_cons.mp h with h | h
      · exact hc1 h
      · exact hu1 h
  · rw [if_neg hsch] at hcc
    exact hu1 hcc

theorem memDropLastG {α : Type} {x : List α} {a : α} (h : a ∈ x.dropLast) : a ∈ x :=
  (List.dropLast_sublist x).mem h

theorem memSplitOnChar {c : Char} {x : Str} : ∀ {seg : Str}, seg ∈ splitOnChar c x →
    ∀ {a : Char}, a ∈ seg → a ∈ x := by
  induction x with
  | nil =>
    intro seg hseg a ha
    rw [splitOnChar] at hseg
    rcases List.mem_cons.mp hseg with rfl | h2
    · cases ha
    · cases h2
  | cons x0 xs ih =>
    intro seg hseg a ha
    rw [splitOnChar] at hseg
    by_cases hx0 : x0 = c
    · rw [if_pos hx0] at hseg
      rcases List.mem_cons.mp hseg with rfl | h2
      · cases ha
      · exact List.mem_cons_of_mem _ (ih h2 ha)
    · rw [if_neg hx0] at hseg
      cases hrec : splitOnChar c xs with
      | nil =>
        rw [hrec] at hseg
        rcases List.mem_cons.mp hseg with rfl | h2
        · rcases List.mem_cons.mp ha with rfl | h3
          · exact List.mem_cons_self _ _
          · cases h3
        · cases h2
      | cons a0 rest =>
        rw [hrec] at hseg
        rcases List.mem_cons.mp hseg with rfl | h2
        · rcases List.mem_cons.mp ha with rfl | h3
          · exact List.mem_cons_self _ _
          · exact List.mem_cons_of_mem _
              (ih (by rw [hrec]; exact List.mem_cons_self _ _) h3)
        · exact List.mem_cons_of_mem _
            (ih (by rw [hrec]; exact List.mem_cons_of_mem _ h2) ha)

theorem memFilterMidAux {l : List Str} {seg : Str} (h : seg ∈ filterMidAux l) :
    seg ∈ l := by
  induction l with
  | nil => cases h
  | cons y ys ih =>
    cases ys with
    | nil => exact h
    | cons y2 ys2 =>
      rw [filterMidAux] at h
      split at h
      · exact List.mem_cons_of_mem _ (ih h)
      · rcases List.mem_cons.mp h with rfl | h2
        · exact List.mem_cons_self _ _
        · exact List.mem_cons_of_mem _ (ih h2)

theorem memFilterMid {l : List Str} {seg : Str} (h : seg ∈ filterMid l) : seg ∈ l := by
  cases l with
  | nil => cases h
  | cons x xs =>
    rw [filterMid] at h
    rcases List.mem_cons.mp h with rfl | h2
    · exact List.mem_cons_self _ _
    · exact List.mem_cons_of_mem _ (memFilterMidAux h2)

theorem memFoldlResolve {segs : List Str} : ∀ {acc : List Str} {seg : Str},
    seg ∈ segs.foldl resolveStep acc → seg ∈ acc ∨ seg ∈ segs := by
  induction segs with
  | nil =>
    intro acc seg h
    exact Or.inl h
  | cons s0 rest ih =>
    intro acc seg h
    rw [List.foldl_cons] at h
    rcases ih h with h2 | h2
    · rw [resolveStep] at h2
      split at h2
      · exact Or.inl (memDropLastG h2)
      · split at h2
        · exact Or.inl h2
        · rcases List.mem_append.mp h2 with h3 | h3
          · exact Or.inl h3
          · rcases List.mem_cons.mp h3 with rfl | h3
            · exact Or.inr (List.mem_cons_self _ _)
            · cases h3
    · exact Or.inr (List.mem_cons_of_mem _ h2)

theorem memIntercalate {L : List Str} {sep : Str} {a : Char}
    (h : a ∈ List.intercalate sep L) : a ∈ sep ∨ ∃ seg ∈ L, a ∈ seg := by
  induction L with
  | nil => simp [List.intercalate, List.intersperse] at h
  | cons b tl ih =>
    cases tl with
    | nil =>
      simp [List.intercalate, List.intersperse] at h
      exact Or.inr ⟨b, List.mem_cons_self _ _, h⟩
    | cons c tl2 =>
      have e : List.intercalate sep (b :: c :: tl2)
          = b ++ (sep ++ List.intercalate sep (c :: tl2)) := by
        rw [List.intercalate, List.intersperse_cons_cons, List.flatten_cons,
          List.flatten_cons]
        rfl
      rw [e] at h
      rcases List.mem_append.mp h with h2 | h2
      · exact Or.inr ⟨b, List.mem_cons_self _ _, h2⟩
      · rcases List.mem_append.mp h2 with h3 | h3
        · exact Or.inl h3
        · rcases ih h3 with h4 | ⟨seg, hs1, hs2⟩
          · exact Or.inl h4
          · exact Or.inr ⟨seg, List.mem_cons_of_mem _ hs1, hs2⟩

theorem pathPortionNoC {path params : Str} {c : Char} (h1 : c ∉ path)
    (h2 : c ∉ params) (hc : c ≠ ';') : c ∉ pathPortion path params := by
  intro hcc
  rw [pathPortion] at hcc
  by_cases hpe : params ≠ []
  · rw [if_pos hpe] at hcc
    rcases List.mem_append.mp hcc with hh | hh
    · exact h1 hh
    · rcases List.mem_cons.mp hh with hh | hh
      · exact hc hh
      · exact h2 hh
  · rw [if_neg hpe] at hcc
    exact h1 hcc

set_option maxHeartbeats 1000000 in
/-- `urljoin` against a fixed base is uniform in the query of the resolved
URL: joining `s ++ '?' :: q` yields `A ++ '?' :: q` for an `A` free of `?`
and `#` that depends only on `base` and `s`, or fails uniformly. -/
theorem urljoinQm {base s : Str} (hs1 : '?' ∉ s) (hs2 : '#' ∉ s) :
    (∃ A, '?' ∉ A ∧ '#' ∉ A ∧ ∀ q : Str, q ≠ [] → '#' ∉ q →
        urljoin base (s ++ '?' :: q) = .ok (A ++ '?' :: q)) ∨
    (∃ e, ∀ q : Str, q ≠ [] → '#' ∉ q →
        urljoin base (s ++ '?' :: q) = .error e) := by
  have hne : ∀ q : Str, ¬(s ++ '?' :: q = []) := fun q hc =>
    List.cons_ne_nil '?' q (List.append_eq_nil.mp hc).2
  by_cases hb0 : base = []
  · refine Or.inl ⟨s, hs1, hs2, fun q hq hqh => ?_⟩
    unfold urljoin
    rw [if_pos hb0]
  · cases hpb : urlparse base [] with
    | error e =>
      refine Or.inr ⟨e, fun q hq hqh => ?_⟩
      unfold urljoin
      rw [if_neg hb0, if_neg (hne q)]
      simp only [hpb]
    | ok b =>
      obtain ⟨hbnet, hbpath, hbpar, hbq, hbsch, _⟩ := urlparse_wf hpb
      have hbs1 : '?' ∉ b.scheme := by
        rcases hbsch with h0 | ⟨pre, _, hpre, hlo⟩
        · rw [h0]; exact List.not_mem_nil _
        · rw [hlo]; exact lowerStrNotMem (by decide) (schemePreNoQm hpre)
      have hbs2 : '#' ∉ b.scheme := by
        rcases hbsch with h0 | ⟨pre, _, hpre, hlo⟩
        · rw [h0]; exact List.not_mem_nil _
        · rw [hlo]; exact lowerStrNotMem (by decide) (schemePreNoHash hpre)
      rcases qparse b.scheme hs1 hs2 with ⟨σ, ν, p1, p2, hT⟩ | ⟨e, hTe⟩
      · have hT0 := hT ['a'] (by decide)
        obtain ⟨htnet, htpath, htpar, _, htsch, _⟩ := urlparse_wf hT0
        have hν1 : '?' ∉ ν := htnet.2.1
        have hν2 : '#' ∉ ν := htnet.2.2
        have hp11 : '?' ∉ p1 := htpath.1
        have hp12 : '#' ∉ p1 := htpath.2
        have hp21 : '?' ∉ p2 := htpar.2.1
        have hp22 : '#' ∉ p2 := htpar.2.2
        have hσ1 : '?' ∉ σ := by
          rcases htsch with h0 | ⟨pre, _, hpre, hlo⟩
          · have h0' : σ = b.scheme := h0
            rw [h0']; exact hbs1
          · have hlo' : σ = lowerStr pre := hlo
            rw [hlo']; exact lowerStrNotMem (by decide) (schemePreNoQm hpre)
        have hσ2 : '#' ∉ σ := by
          rcases htsch with h0 | ⟨pre, _, hpre, hlo⟩
          · have h0' : σ = b.scheme := h0
            rw [h0']; exact hbs2
          · have hlo' : σ = lowerStr pre := hlo
            rw [hlo']; exact lowerStrNotMem (by decide) (schemePreNoHash hpre)
        set NL := (if σ ∈ uses_netloc then b.netloc else ν) with hNLd
        have hNL1 : '?' ∉ NL := by
          rw [hNLd]; split
          · exact hbnet.2.1
          · exact hν1
        have hNL2 : '#' ∉ NL := by
          rw [hNLd]; split
          · exact hbnet.2.2
          · exact hν2
        by_cases hbr1 : σ ≠ b.scheme ∨ σ ∉ uses_relative
        · refine Or.inl ⟨s, hs1, hs2, fun q hq hqh => ?_⟩
          unfold urljoin
          rw [if_neg hb0, if_neg (hne q)]
          simp only [hpb, hT q hqh]
          rw [if_pos hbr1]
        · by_cases hbr2 : σ ∈ uses_netloc ∧ ν ≠ []
          · refine Or.inl ⟨urlunsplit σ ν (pathPortion p1 p2) [] [],
              urlunsplitNoC σ ν (pathPortion p1 p2) hσ1 hν1
                (pathPortionNoC hp11 hp21 (by decide)) (by decide) (by decide),
              urlunsplitNoC σ ν (pathPortion p1 p2) hσ2 hν2
                (pathPortionNoC hp12 hp22 (by decide)) (by decide) (by decide),
              fun q hq hqh => ?_⟩
            unfold urljoin
            rw [if_neg hb0, if_neg (hne q)]
            simp only [hpb, hT q hqh]
            rw [if_neg hbr1, if_pos hbr2]
            exact congrArg Except.ok (urlunsplitQm σ ν (pathPortion p1 p2) hq)
          · by_cases hbr3 : p1 = [] ∧ p2 = []
            · refine Or.inl ⟨urlunsplit σ NL (pathPortion b.path b.params) [] [],
                urlunsplitNoC σ NL (pathPortion b.path b.params) hσ1 hNL1
                  (pathPortionNoC hbpath.1 hbpar.2.1 (by decide)) (by decide) (by decide),
                urlunsplitNoC σ NL (pathPortion b.path b.params) hσ2 hNL2
                  (pathPortionNoC hbpath.2 hbpar.2.2 (by decide)) (by decide) (by decide),
                fun q hq hqh => ?_⟩
              unfold urljoin
              rw [if_neg hb0, if_neg (hne q)]
              simp only [hpb, hT q hqh]
              rw [if_neg hbr1, if_neg hbr2, if_pos hbr3, if_neg hq]
              exact congrArg Except.ok
                (urlunsplitQm σ NL (pathPortion b.path b.params) hq)
            · set BP0 := splitOnChar '/' b.path with hBP0
              set BP := (if BP0.getLast? ≠ some ([] : Str) then BP0.dropLast else BP0)
                with hBP
              set SEG := (if p1.head? = some '/' then splitOnChar '/' p1
                else filterMid (BP ++ splitOnChar '/' p1)) with hSEG
              set R0 := SEG.foldl resolveStep [] with hR0
              set R := (if SEG.getLast? = some ['.'] ∨ SEG.getLast? = some ['.', '.']
                then R0 ++ [([] : Str)] else R0) with hR
              set J := List.intercalate ['/'] R with hJ
              have hJmem : ∀ {c : Char}, c ∈ J → c = '/' ∨ c ∈ b.path ∨ c ∈ p1 := by
                intro c hc
                rw [hJ] at hc
                rcases memIntercalate hc with h1 | ⟨seg, hseg, hcseg⟩
                · rcases List.mem_cons.mp h1 with h2 | h2
                  · exact Or.inl h2
                  · cases h2
                · have hseg2 : seg ∈ R0 ∨ seg = [] := by
                    rw [hR] at hseg
                    split at hseg
                    · rcases List.mem_append.mp hseg with h3 | h3
                      · exact Or.inl h3
                      · rcases List.mem_cons.mp h3 with h4 | h4
                        · exact Or.inr h4
                        · cases h4
                    · exact Or.inl hseg
                  rcases hseg2 with hseg2 | rfl
                  · rw [hR0] at hseg2
                    rcases memFoldlResolve hseg2 with h3 | h3
                    · cases h3
                    · rw [hSEG] at h3
                      have hsegsub : c ∈ b.path ∨ c ∈ p1 := by
                        by_cases hps : p1.head? = some '/'
                        · rw [if_pos hps] at h3
                          exact Or.inr (memSplitOnChar h3 hcseg)
                        · rw [if_neg hps] at h3
                          have h4 := memFilterMid h3
                          rcases List.mem_append.mp h4 with h5 | h5
                          · have h6 : seg ∈ BP0 := by
                              rw [hBP] at h5
                              split at h5
                              · exact memDropLastG h5
                              · exact h5
                            rw [hBP0] at h6
                            exact Or.inl (memSplitOnChar h6 hcseg)
                          · exact Or.inr (memSplitOnChar h5 hcseg)
                      exact Or.inr hsegsub
                  · cases hcseg
              have hJ1 : '?' ∉ (if J = [] then ['/'] else J) := by
                split
                · intro hc
                  rcases List.mem_cons.mp hc with h | h
                  · exact absurd h (by decide)
                  · cases h
                · intro hc
                  rcases hJmem hc with h | h | h
                  · exact absurd h (by decide)
                  · exact hbpath.1 h
                  · exact hp11 h
              have hJ2 : '#' ∉ (if J = [] then ['/'] else J) := by
                split
                · intro hc
                  rcases List.mem_cons.mp hc with h | h
                  · exact absurd h (by decide)
                  · cases h
                · intro hc
                  rcases hJmem hc with h | h | h
                  · exact absurd h (by decide)
                  · exact hbpath.2 h
                  · exact hp12 h
              refine Or.inl ⟨urlunsplit σ NL
                  (pathPortion (if J = [] then ['/'] else J) p2) [] [],
                urlunsplitNoC σ NL _ hσ1 hNL1
                  (pathPortionNoC hJ1 hp21 (by decide)) (by decide) (by decide),
                urlunsplitNoC σ NL _ hσ2 hNL2
                  (pathPortionNoC hJ2 hp22 (by decide)) (by decide) (by decide),
                fun q hq hqh => ?_⟩
              unfold urljoin
              rw [if_neg hb0, if_neg (hne q)]
              simp only [hpb, hT q hqh]
              rw [if_neg hbr1, if_neg hbr2, if_neg hbr3]
              exact congrArg Except.ok (urlunsplitQm σ NL
                (pathPortion (if J = [] then ['/'] else J) p2) hq)
      · refine Or.inr ⟨e, fun q hq hqh => ?_⟩
        unfold urljoin
        rw [if_neg hb0, if_neg (hne q)]
        simp only [hpb, hTe q]

theorem stripShapeQm (A : Str) {q : Str} (hqh : '#' ∉ q) :
    ∃ q2, strip_trailing_slash (A ++ '?' :: q) = A ++ '?' :: q2 ∧ '#' ∉ q2 := by
  by_cases hcond : (A ++ '?' :: q).getLast? = some '/' ∧ (A ++ '?' :: q).length > 8
  · cases q with
    | nil =>
      exfalso
      rw [getLastAppend A (List.cons_ne_nil '?' [])] at hcond
      exact absurd hcond.1 (by decide)
    | cons c0 q0 =>
      refine ⟨(c0 :: q0).dropLast, ?_, fun hc => hqh (memDropLast hc)⟩
      rw [strip_trailing_slash, if_pos hcond,
        dropLastAppend A (List.cons_ne_nil '?' (c0 :: q0)), List.dropLast_cons₂]
  · refine ⟨q, ?_, hqh⟩
    rw [strip_trailing_slash, if_neg hcond]

theorem urldefragNoHash {u : Str} (h : '#' ∉ u) : urldefragUrl u = .ok u := by
  rw [urldefragUrl, if_neg h]

/-- `drop_query` on `A ++ '?' :: q` does not depend on `q`. -/
theorem dropQueryQm {A : Str} (h1 : '?' ∉ A) (h2 : '#' ∉ A) :
    (∃ v, ∀ q : Str, '#' ∉ q → drop_query (A ++ '?' :: q) = .ok v) ∨
    (∃ e, ∀ q : Str, drop_query (A ++ '?' :: q) = .error e) := by
  rcases qparse [] h1 h2 with ⟨σ, ν, p1, p2, hok⟩ | ⟨e, herr⟩
  · refine Or.inl ⟨urlunparse ⟨σ, ν, p1, p2, [], []⟩, fun q hq => ?_⟩
    unfold drop_query
    simp only [hok q hq]
  · refine Or.inr ⟨e, fun q => ?_⟩
    unfold drop_query
    simp only [herr q]

theorem headAppendCons (s q : Str) (c : Char) :
    (s ++ c :: q).head? = (s ++ [c]).head? := by cases s <;> rfl

theorem isPrefixAppendCons (p : Str) (q : Str) (c : Char) (hp : c ∉ p) :
    ∀ {s : Str}, startsWithStr p (s ++ c :: q) = startsWithStr p (s ++ [c]) := by
  induction p with
  | nil => intro s; simp [startsWithStr]
  | cons p0 ps ih =>
    intro s
    cases s with
    | nil =>
      by_cases hp0 : p0 = c
      · exact absurd (hp0 ▸ List.mem_cons_self p0 ps) hp
      · show ((p0 == c) && List.isPrefixOf ps q) = ((p0 == c) && List.isPrefixOf ps [])
        have hb : (p0 == c) = false := by
          simp [hp0]
        rw [hb, Bool.false_and, Bool.false_and]
    | cons s0 ss =>
      have ih' : List.isPrefixOf ps (ss ++ c :: q) = List.isPrefixOf ps (ss ++ [c]) :=
        ih (fun hc => hp (List.mem_cons_of_mem p0 hc))
      show (p0 == s0 && List.isPrefixOf ps (ss ++ c :: q))
          = (p0 == s0 && List.isPrefixOf ps (ss ++ [c]))
      rw [ih']

/-- `normalize_url` on `s ++ '?' :: q` (for a stripped href) is uniform in
the query `q`: it rejects uniformly, resolves to `A ++ '?' :: q2` for a fixed
`A`, or fails uniformly. -/
theorem normalizeQm {base s : Str} (hs1 : '?' ∉ s) (hs2 : '#' ∉ s) :
    (∀ q : Str, q ≠ [] → '#' ∉ q → pyStrip (s ++ '?' :: q) = s ++ '?' :: q →
        normalize_url base (s ++ '?' :: q) = .ok none) ∨
    (∃ A, '?' ∉ A ∧ '#' ∉ A ∧ ∀ q : Str, q ≠ [] → '#' ∉ q →
        pyStrip (s ++ '?' :: q) = s ++ '?' :: q →
        ∃ q2, normalize_url base (s ++ '?' :: q) = .ok (some (A ++ '?' :: q2)) ∧
          '#' ∉ q2) ∨
    (∃ e, ∀ q : Str, q ≠ [] → '#' ∉ q → pyStrip (s ++ '?' :: q) = s ++ '?' :: q →
        normalize_url base (s ++ '?' :: q) = .error e) := by
  have hne : ∀ q : Str, ¬(s ++ '?' :: q = []) := fun q hc =>
    List.cons_ne_nil '?' q (List.append_eq_nil.mp hc).2
  by_cases hC0 : (s ++ ['?']).head? = some '#' ∨
      startsWithStr (("mailto:").data) (s ++ ['?']) = true ∨
      startsWithStr (("tel:").data) (s ++ ['?']) = true ∨
      startsWithStr (("javascript:").data) (s ++ ['?']) = true
  · refine Or.inl fun q hq hqh hstq => ?_
    have hCq : (s ++ '?' :: q).head? = some '#' ∨
        startsWithStr (("mailto:").data) (s ++ '?' :: q) = true ∨
        startsWithStr (("tel:").data) (s ++ '?' :: q) = true ∨
        startsWithStr (("javascript:").data) (s ++ '?' :: q) = true := by
      rw [headAppendCons s q '?',
        isPrefixAppendCons (("mailto:").data) q '?' (by decide),
        isPrefixAppendCons (("tel:").data) q '?' (by decide),
        isPrefixAppendCons (("javascript:").data) q '?' (by decide)]
      exact hC0
    simp only [normalize_url, hstq]
    rw [if_neg (hne q), if_pos hCq]
  · have hCq : ∀ q : Str, ¬((s ++ '?' :: q).head? = some '#' ∨
        startsWithStr (("mailto:").data) (s ++ '?' :: q) = true ∨
        startsWithStr (("tel:").data) (s ++ '?' :: q) = true ∨
        startsWithStr (("javascript:").data) (s ++ '?' :: q) = true) := by
      intro q
      rw [headAppendCons s q '?',
        isPrefixAppendCons (("mailto:").data) q '?' (by decide),
        isPrefixAppendCons (("tel:").data) q '?' (by decide),
        isPrefixAppendCons (("javascript:").data) q '?' (by decide)]
      exact hC0
    rcases @urljoinQm base s hs1 hs2 with ⟨A, hA1, hA2, hjoin⟩ | ⟨e, herr⟩
    · refine Or.inr (Or.inl ⟨A, hA1, hA2, fun q hq hqh hstq => ?_⟩)
      obtain ⟨q2, hq2eq, hq2h⟩ := stripShapeQm A hqh
      have hdf : '#' ∉ A ++ '?' :: q := by
        intro hc
        rcases List.mem_append.mp hc with h | h
        · exact hA2 h
        · rcases List.mem_cons.mp h with h | h
          · exact absurd h (by decide)
          · exact hqh h
      refine ⟨q2, ?_, hq2h⟩
      simp only [normalize_url, hstq]
      rw [if_neg (hne q), if_neg (hCq q)]
      simp only [hjoin q hq hqh, urldefragNoHash hdf, hq2eq]
    · refine Or.inr (Or.inr ⟨e, fun q hq hqh hstq => ?_⟩)
      simp only [normalize_url, hstq]
      rw [if_neg (hne q), if_neg (hCq q)]
      simp only [herr q hq hqh]

/-- Claim C10 counterexample: two hrefs that differ only in their query
string (`.../p/` versus `.../p/?x=1`) do NOT share one identity key: the
first is canonicalised to `.../p` (the trailing slash is stripped before the
query is dropped) while the second keeps its slash, ending as `.../p/`. -/
theorem claim_C10_counterexample :
    linkTargetCanon (("https://example.com").data) (("https://example.com/p/").data)
      = .ok (some (("https://example.com/p").data)) ∧
    linkTargetCanon (("https://example.com").data) (("https://example.com/p/?x=1").data)
      = .ok (some (("https://example.com/p/").data)) :=
  ⟨by decide, by decide⟩

/-- Claim C10 (amended): every URL the BFS engine handles has an empty query
component — re-parsing a visited-page key (`pageCanon`) or a link identity
key (`linkTargetCanon`) always yields an empty query — and two hrefs that
differ only in a NONEMPTY, fragment-free query string (`s ++ ?q1` versus
`s ++ ?q2` for stripped hrefs) are identified as the same link and share one
identity key.  (Hrefs where one variant lacks the query entirely need not
share a key: the trailing-slash strip may act differently, see the
counterexample.) -/
theorem claim_C10_amended :
    (∀ (u r d : Str) (pr : ParseResult), pageCanon u = .ok r →
        urlparse r d = .ok pr → pr.query = []) ∧
    (∀ (base href v d : Str) (pr : ParseResult),
        linkTargetCanon base href = .ok (some v) →
        urlparse v d = .ok pr → pr.query = []) ∧
    (∀ base s q1 q2 : Str, q1 ≠ [] → q2 ≠ [] → '#' ∉ q1 → '#' ∉ q2 →
        '?' ∉ s → '#' ∉ s →
        pyStrip (s ++ '?' :: q1) = s ++ '?' :: q1 →
        pyStrip (s ++ '?' :: q2) = s ++ '?' :: q2 →
        linkTargetCanon base (s ++ '?' :: q1)
          = linkTargetCanon base (s ++ '?' :: q2)) := by
  refine ⟨?_, ?_, ?_⟩
  · intro u r d pr h hpr
    exact dropQueryEmptyQuery h hpr
  · intro base href v d pr h hpr
    unfold linkTargetCanon at h
    cases hn : normalize_url base href with
    | error e => rw [hn] at h; cases h
    | ok o =>
      simp only [hn] at h
      cases o with
      | none => cases h
      | some u =>
        cases hd : drop_query (strip_trailing_slash u) with
        | error e =>
          simp only [hd] at h
          cases h
        | ok w =>
          simp only [hd] at h
          injection h with h2
          injection h2 with h3
          subst h3
          exact dropQueryEmptyQuery hd hpr
  · intro base s q1 q2 h1 h2 h1h h2h hs1 hs2 hst1 hst2
    rcases @normalizeQm base s hs1 hs2 with hnone | ⟨A, hA1, hA2, hsome⟩ | ⟨e, herr⟩
    · simp only [linkTargetCanon, hnone q1 h1 h1h hst1, hnone q2 h2 h2h hst2]
    · obtain ⟨qa, hqa, hqah⟩ := hsome q1 h1 h1h hst1
      obtain ⟨qb, hqb, hqbh⟩ := hsome q2 h2 h2h hst2
      obtain ⟨qa2, hqa2, hqa2h⟩ := stripShapeQm A hqah
      obtain ⟨qb2, hqb2, hqb2h⟩ := stripShapeQm A hqbh
      rcases dropQueryQm hA1 hA2 with ⟨v, hv⟩ | ⟨e, he⟩
      · simp only [linkTargetCanon, hqa, hqb, hqa2, hqb2, hv qa2 hqa2h, hv qb2 hqb2h]
      · simp only [linkTargetCanon, hqa, hqb, hqa2, hqb2, he qa2, he qb2]
    · simp only [linkTargetCanon, herr q1 h1 h1h hst1, herr q2 h2 h2h hst2]

/-- Witness for the amended claim C10 at concrete inputs: the page key of
`.../p?x=1` re-parses with an empty query, the link key of `/about?z`
re-parses with an empty query, and `.../p?a` and `.../p?b=2` share one key. -/
theorem claim_C10_amended_witness :
    (⟨("https").data, ("example.com").data, ("/p").data, [], [], []⟩
      : ParseResult).query = [] ∧
    (⟨("https").data, ("example.com").data, ("/about").data, [], [], []⟩
      : ParseResult).query = [] ∧
    linkTargetCanon (("https://example.com").data) (("https://example.com/p?a").data)
      = linkTargetCanon (("https://example.com").data)
          (("https://example.com/p?b=2").data) :=
  ⟨claim_C10_amended.1 (("https://example.com/p?x=1").data)
      (("https://example.com/p").data) []
      ⟨("https").data, ("example.com").data, ("/p").data, [], [], []⟩
      (by decide) (by decide),
   claim_C10_amended.2.1 (("https://example.com").data) (("/about?z").data)
      (("https://example.com/about").data) []
      ⟨("https").data, ("example.com").data, ("/about").data, [], [], []⟩
      (by decide) (by decide),
   by
    have h := claim_C10_amended.2.2 (("https://example.com").data)
      (("https://example.com/p").data) (("a").data) (("b=2").data)
      (by decide) (by decide) (by decide) (by decide) (by decide) (by decide)
      (by decide) (by decide)
    exact h⟩

theorem urlunsplitNoCQ (scheme netloc path query : Str) {c : Char}
    (h1 : c ∉ scheme) (h2 : c ∉ netloc) (h3 : c ∉ path) (h4 : c ∉ query)
    (hc1 : c ≠ ':') (hc2 : c ≠ '/') (hc3 : c ≠ '?') :
    c ∉ urlunsplit scheme netloc path query [] := by
  by_cases hq : query = []
  · subst hq
    exact urlunsplitNoC scheme netloc path h1 h2 h3 hc1 hc2
  · rw [urlunsplitQm scheme netloc path hq]
    intro hcc
    rcases List.mem_append.mp hcc with h | h
    · exact urlunsplitNoC scheme netloc path h1 h2 h3 hc1 hc2 h
    · rcases List.mem_cons.mp h with h | h
      · exact hc3 h
      · exact h4 h

theorem urldefragNoHashOut {a a2 : Str} (h : urldefragUrl a = .ok a2) : '#' ∉ a2 := by
  unfold urldefragUrl at h
  by_cases hm : '#' ∈ a
  · rw [if_pos hm] at h
    cases hp : urlparse a [] with
    | error e => rw [hp] at h; cases h
    | ok r =>
      rw [hp] at h
      injection h with h
      subst h
      obtain ⟨hnet, hpath, hpar, hq, hsch, _⟩ := urlparse_wf hp
      have hs2 : '#' ∉ r.scheme := by
        rcases hsch with h0 | ⟨pre, _, hpre, hlo⟩
        · rw [h0]; exact List.not_mem_nil _
        · rw [hlo]; exact lowerStrNotMem (by decide) (schemePreNoHash hpre)
      exact urlunsplitNoCQ r.scheme r.netloc (pathPortion r.path r.params) r.query
        hs2 hnet.2.2 (pathPortionNoC hpath.2 hpar.2.2 (by decide)) hq
        (by decide) (by decide) (by decide)
  · rw [if_neg hm] at h
    injection h with h
    subst h
    exact hm

theorem normalize_noHash {base href u : Str}
    (h : normalize_url base href = .ok (some u)) : '#' ∉ u := by
  simp only [normalize_url] at h
  by_cases h0 : href = []
  · rw [if_pos h0] at h
    exact Option.noConfusion (Except.ok.inj h)
  · rw [if_neg h0] at h
    by_cases hC : (pyStrip href).head? = some '#' ∨
        startsWithStr (("mailto:").data) (pyStrip href) = true ∨
        startsWithStr (("tel:").data) (pyStrip href) = true ∨
        startsWithStr (("javascript:").data) (pyStrip href) = true
    · rw [if_pos hC] at h
      exact Option.noConfusion (Except.ok.inj h)
    · rw [if_neg hC] at h
      cases hj : urljoin base (pyStrip href) with
      | error e => rw [hj] at h; cases h
      | ok a =>
        simp only [hj] at h
        cases hd : urldefragUrl a with
        | error e => simp only [hd] at h; cases h
        | ok a2 =>
          simp only [hd] at h
          injection h with h
          injection h with h
          subst h
          intro hc
          rw [strip_trailing_slash] at hc
          split at hc
          · exact urldefragNoHashOut hd (memDropLast hc)
          · exact urldefragNoHashOut hd hc

theorem headDropWhile {P : Char → Bool} {l : Str} {c : Char}
    (h : (l.dropWhile P).head? = some c) : P c = false := by
  induction l with
  | nil => cases h
  | cons b bs ih =>
    rw [List.dropWhile_cons] at h
    by_cases hb : P b = true
    · rw [if_pos hb] at h
      exact ih h
    · rw [if_neg hb] at h
      injection h with h
      rw [← h]
      exact Bool.eq_false_iff.mpr hb

theorem splitFirstHeadCons {e c : Char} {w a b : Str}
    (h : splitFirst e (c :: w) = some (a, b)) (hne : ¬c = e) :
    ∃ a2, a = c :: a2 := by
  obtain ⟨heq, _⟩ := splitFirstSome.mp h
  cases a with
  | nil =>
    rw [List.nil_append] at heq
    injection heq with h1 _
    exact absurd h1 hne
  | cons x xs =>
    injection heq with h1 _
    exact ⟨xs, by rw [h1]⟩

theorem isPrefixOfIff {p : Str} : ∀ {s : Str},
    startsWithStr p s = true ↔ ∃ w, s = p ++ w := by
  induction p with
  | nil =>
    intro s
    constructor
    · intro _; exact ⟨s, rfl⟩
    · intro _; simp [startsWithStr]
  | cons p0 ps ih =>
    intro s
    cases s with
    | nil =>
      constructor
      · intro h; cases h
      · rintro ⟨w, hw⟩; cases hw
    | cons s0 ss =>
      constructor
      · intro h
        have h2 : (p0 == s0 && List.isPrefixOf ps ss) = true := h
        rw [Bool.and_eq_true] at h2
        have h4 : p0 = s0 := by
          have h5 := h2.1
          simpa using h5
        obtain ⟨w, hw⟩ := ih.mp h2.2
        exact ⟨w, by rw [h4, hw, List.cons_append]⟩
      · rintro ⟨w, hw⟩
        rw [List.cons_append] at hw
        injection hw with h1 h2
        show (p0 == s0 && List.isPrefixOf ps ss) = true
        rw [h1]
        have h5 : List.isPrefixOf ps ss = true := ih.mpr ⟨w, h2⟩
        simp [h5]

/-- When a successful `urlsplit` found a nonempty netloc, the path is empty
or starts with a slash (the netloc scan stops at the first of `/?#`). -/
theorem urlsplit_pathHeadNetloc {url d : Str} {r : SplitResult}
    (h : urlsplit url d = .ok r) (hn : r.netloc ≠ []) :
    r.path = [] ∨ r.path.head? = some '/' := by
  unfold urlsplit at h
  set sp := (match splitFirst ':' url with
    | some (pre, post) =>
      if pre ≠ [] ∧ pre.all isSchemeChar then (lowerStr pre, post) else (d, url)
    | none => (d, url)) with hsp
  set rest := sp.2 with hrest
  set nl := (if rest.take 2 = ['/', '/'] then
      ((rest.drop 2).takeWhile netlocChar, (rest.drop 2).dropWhile netlocChar)
    else ([], rest)) with hnl
  by_cases hbr : ('[' ∈ nl.1 ∧ ']' ∉ nl.1) ∨ (']' ∈ nl.1 ∧ '[' ∉ nl.1)
  · rw [if_pos hbr] at h
    cases h
  · rw [if_neg hbr] at h
    set rest2 := nl.2 with hrest2
    set fr := (match splitFirst '#' rest2 with
      | some (a, f) => (a, f)
      | none => (rest2, ([] : Str))) with hfrdef
    set pq := (match splitFirst '?' fr.1 with
      | some (a, q) => (a, q)
      | none => (fr.1, ([] : Str))) with hpqdef
    injection h with h
    rw [← h] at hn ⊢
    have hn' : nl.1 ≠ [] := hn
    show pq.1 = [] ∨ pq.1.head? = some '/'
    have hb2 : rest.take 2 = ['/', '/'] := by
      by_contra hb
      rw [hnl, if_neg hb] at hn'
      exact hn' rfl
    have hr2 : rest2 = (rest.drop 2).dropWhile netlocChar := by
      rw [hrest2, hnl, if_pos hb2]
    cases hrr : rest2 with
    | nil =>
      have hfr1 : fr.1 = [] := by
        rw [hfrdef]
        cases hsf : splitFirst '#' rest2 with
        | none => simp only [hsf]; exact hrr
        | some p =>
          obtain ⟨a, f⟩ := p
          rw [hrr] at hsf
          simp [splitFirst] at hsf
      have hsq : splitFirst '?' fr.1 = none := by rw [hfr1]; rfl
      left
      simp only [hpqdef, hsq, hfr1]
      rfl
    | cons c w =>
      have hhead : ((rest.drop 2).dropWhile netlocChar).head? = some c := by
        rw [← hr2, hrr]
        rfl
      have hcP : netlocChar c = false := headDropWhile hhead
      have hc3 : c = '/' ∨ c = '?' ∨ c = '#' := by
        simp [netlocChar] at hcP
        tauto
      rcases hc3 with rfl | rfl | rfl
      · have hfr1 : ∃ x, fr.1 = '/' :: x := by
          rw [hfrdef]
          cases hsf : splitFirst '#' rest2 with
          | none => simp only [hsf]; exact ⟨w, hrr⟩
          | some p =>
            obtain ⟨a, f⟩ := p
            simp only [hsf]
            exact splitFirstHeadCons (hrr ▸ hsf) (by decide)
        obtain ⟨x, hx⟩ := hfr1
        right
        rw [hpqdef]
        cases hsq : splitFirst '?' fr.1 with
        | none =>
          simp only [hsq]
          rw [hx]
          rfl
        | some p =>
          obtain ⟨aa, qq⟩ := p
          simp only [hsq]
          obtain ⟨a2, ha2⟩ := splitFirstHeadCons (hx ▸ hsq) (by decide)
          rw [ha2]
          rfl
      · have hfr1 : ∃ x, fr.1 = '?' :: x := by
          rw [hfrdef]
          cases hsf : splitFirst '#' rest2 with
          | none => simp only [hsf]; exact ⟨w, hrr⟩
          | some p =>
            obtain ⟨a, f⟩ := p
            simp only [hsf]
            exact splitFirstHeadCons (hrr ▸ hsf) (by decide)
        obtain ⟨x, hx⟩ := hfr1
        have hsq : splitFirst '?' fr.1 = some ([], x) := by
          rw [hx]
          simp [splitFirst]
        left
        simp only [hpqdef, hsq]
      · have hsf : splitFirst '#' rest2 = some ([], w) := by
          rw [hrr]
          simp [splitFirst]
        have hfr1 : fr.1 = [] := by rw [hfrdef]; simp only [hsf]
        have hsq : splitFirst '?' fr.1 = none := by rw [hfr1]; rfl
        left
        simp only [hpqdef, hsq, hfr1]
        rfl

set_option maxHeartbeats 1000000 in
/-- Claim C9 (amended): `normalize_url` is stable on its own output for
same-scheme absolute URLs: if the base parses with an http/https scheme, a
normalization output `u` itself starts with that scheme, re-parses with a
nonempty netloc, is whitespace-stripped, does not end in `/`, `?` or `;`,
and does not mix `;` into a query-carrying URL, then normalizing `u` again
returns `u` unchanged.  (Without the trailing-slash condition this fails:
see the counterexample, where one more slash is stripped on re-entry.) -/
theorem claim_C9_amended (base href u : Str) (b t : ParseResult)
    (hb : urlparse base [] = .ok b)
    (hbs : b.scheme = ("http").data ∨ b.scheme = ("https").data)
    (hn : normalize_url base href = .ok (some u))
    (h7 : startsWithStr (b.scheme ++ (":").data) u = true)
    (ht : urlparse u b.scheme = .ok t)
    (htn : t.netloc ≠ [])
    (hst : pyStrip u = u)
    (h4 : u.getLast? ≠ some '/')
    (h5 : u.getLast? ≠ some '?')
    (h6 : u.getLast? ≠ some ';')
    (h8 : ';' ∉ u ∨ '?' ∉ u) :
    normalize_url base u = .ok (some u) := by
  have huh : '#' ∉ u := normalize_noHash hn
  obtain ⟨sr, hsr, htr⟩ := urlparse_ok.mp ht
  subst htr
  have hsn : sr.netloc ≠ [] := htn
  obtain ⟨S, N, QF, FF, hdec, hSf, hNf, hQf, hFf⟩ := urlsplit_char hsr
  rcases hFf with ⟨hFF0, hfrag0⟩ | hFFv
  swap
  · exfalso
    apply huh
    rw [hdec, hFFv]
    simp
  rcases hNf with ⟨hN0, hnl0⟩ | hNv
  · exact absurd hnl0 hsn
  rcases hSf with ⟨hS0, hSd⟩ | ⟨pre, hpne, hpre, hsch, hSv⟩
  · exfalso
    have hh : u.head? = some '/' := by
      rw [hdec, hS0, hNv]
      rfl
    obtain ⟨w7, hw7⟩ := isPrefixOfIff.mp h7
    rcases hbs with hc | hc
    · rw [hw7, hc] at hh
      have hh2 : ∀ w : Str, (((("http").data ++ (":").data)) ++ w).head? = some 'h' :=
        fun w => rfl
      rw [hh2 w7] at hh
      exact absurd hh (by decide)
    · rw [hw7, hc] at hh
      have hh2 : ∀ w : Str, (((("https").data ++ (":").data)) ++ w).head? = some 'h' :=
        fun w => rfl
      rw [hh2 w7] at hh
      exact absurd hh (by decide)
  obtain ⟨w7, hw7⟩ := isPrefixOfIff.mp h7
  have hw7' : u = b.scheme ++ ':' :: w7 := by
    rw [hw7]
    simp
  have hbcol : ':' ∉ b.scheme := by
    rcases hbs with hc | hc <;> rw [hc] <;> decide
  have e1 : splitFirst ':' u = some (b.scheme, w7) := by
    rw [hw7']
    exact splitFirstAppend _ hbcol
  have hcolpre : ':' ∉ pre := by
    intro hc
    have := List.all_eq_true.mp hpre ':' hc
    simp [isSchemeChar] at this
  have e2pre : u = pre ++ ':' :: (N ++ (sr.path ++ (QF ++ FF))) := by
    rw [hdec, hSv]
    simp [List.append_assoc]
  have e2 : splitFirst ':' u = some (pre, N ++ (sr.path ++ (QF ++ FF))) := by
    rw [e2pre]
    exact splitFirstAppend _ hcolpre
  have hp2 : (pre, N ++ (sr.path ++ (QF ++ FF))) = (b.scheme, w7) :=
    Option.some.inj (e2.symm.trans e1)
  have hpreb : pre = b.scheme := congrArg Prod.fst hp2
  have hσb : sr.scheme = b.scheme := by
    rw [hsch, hpreb]
    rcases hbs with hc | hc <;> rw [hc] <;> decide
  have hune : ¬(u = []) := by
    rw [hw7']
    simp
  have hQcase : (QF = [] ∧ sr.query = []) ∨ (QF = '?' :: sr.query ∧ sr.query ≠ []) := by
    rcases hQf with ⟨h1', h2'⟩ | hQFv
    · exact Or.inl ⟨h1', h2'⟩
    · by_cases hqe : sr.query = []
      · exfalso
        apply h5
        rw [hdec, hQFv, hqe, hFF0]
        have e3 : S ++ N ++ sr.path ++ '?' :: ([] : Str) ++ ([] : Str)
            = (S ++ N ++ sr.path) ++ ['?'] := by simp
        rw [e3, getLastAppend _ (by simp)]
        rfl
      · exact Or.inr ⟨hQFv, hqe⟩
  have hπlast : sr.path.getLast? ≠ some ';' := by
    rcases hQcase with ⟨hQF0, hq0⟩ | ⟨hQFv, hqne⟩
    · by_cases hπe : sr.path = []
      · rw [hπe]
        simp
      · have hu' : u = (S ++ N) ++ sr.path := by
          rw [hdec, hQF0, hFF0]
          simp [List.append_assoc]
        intro hx
        exact h6 (by rw [hu', getLastAppend _ hπe, hx])
    · rcases h8 with h8a | h8b
      · intro hx
        apply h8a
        rw [hdec]
        have hm := List.mem_of_getLast?_eq_some hx
        simp [hm]
      · exfalso
        apply h8b
        rw [hdec, hQFv]
        simp
  have hph := urlsplit_pathHeadNetloc hsr hsn
  have hslash : ¬(sr.path ≠ [] ∧ sr.path.head? ≠ some '/') := by
    rintro ⟨hx1, hx2⟩
    rcases hph with h | h
    · exact hx1 h
    · exact hx2 h
  have hσne : sr.scheme ≠ [] := by
    rw [hσb]
    rcases hbs with hc | hc <;> rw [hc] <;> decide
  have hupt : urlunparse ⟨sr.scheme, sr.netloc, (splitPathParams sr.scheme sr.path).1,
      (splitPathParams sr.scheme sr.path).2, sr.query, sr.fragment⟩ = u := by
    have e0 : urlunparse ⟨sr.scheme, sr.netloc, (splitPathParams sr.scheme sr.path).1,
        (splitPathParams sr.scheme sr.path).2, sr.query, sr.fragment⟩
        = urlunsplit sr.scheme sr.netloc sr.path sr.query sr.fragment := by
      show urlunsplit sr.scheme sr.netloc
        (pathPortion (splitPathParams sr.scheme sr.path).1
          (splitPathParams sr.scheme sr.path).2) sr.query sr.fragment = _
      rw [pathPortionJoin sr.scheme hπlast]
    rw [e0, hfrag0]
    simp only [urlunsplit]
    have hnil : ¬(([] : Str) ≠ []) := by simp
    rw [if_neg hnil, if_pos (Or.inl hsn), if_neg hslash, if_pos hσne]
    rcases hQcase with ⟨hQF0, hq0⟩ | ⟨hQFv, hqne⟩
    · rw [if_neg (by rw [hq0]; simp)]
      rw [hdec, hSv, hNv, hQF0, hFF0, hσb, hpreb]
      simp [List.append_assoc]
    · rw [if_pos hqne]
      rw [hdec, hSv, hNv, hQFv, hFF0, hσb, hpreb]
      simp [List.append_assoc]
  have hrel : b.scheme ∈ uses_relative := by
    rcases hbs with hc | hc <;> rw [hc] <;> decide
  have hunet : b.scheme ∈ uses_netloc := by
    rcases hbs with hc | hc <;> rw [hc] <;> decide
  have hcond1 : ¬(sr.scheme ≠ b.scheme ∨ sr.scheme ∉ uses_relative) := by
    rintro (hx | hx)
    · exact hx hσb
    · rw [hσb] at hx
      exact hx hrel
  have hcond2 : sr.scheme ∈ uses_netloc ∧ sr.netloc ≠ [] := by
    constructor
    · rw [hσb]
      exact hunet
    · exact hsn
  have hbne : ¬(base = []) := by
    intro h0
    rw [h0] at hb
    have h1 : urlparse ([] : Str) [] = .ok ⟨[], [], [], [], [], []⟩ := by decide
    rw [h1] at hb
    have hbeq : b = ⟨[], [], [], [], [], []⟩ := (Except.ok.inj hb).symm
    rcases hbs with hc | hc <;> rw [hbeq] at hc <;> exact absurd hc (by decide)
  have hjoin : urljoin base u = .ok u := by
    unfold urljoin
    rw [if_neg hbne, if_neg hune]
    simp only [hb, ht]
    rw [if_neg hcond1, if_pos hcond2, hupt]
  have hhd : ∀ w : Str, (b.scheme ++ ':' :: w).head? = some 'h' := by
    intro w
    rcases hbs with hc | hc <;> rw [hc] <;> rfl
  have hm1 : ∀ w : Str, startsWithStr (("mailto:").data) (b.scheme ++ ':' :: w) = false := by
    intro w
    rcases hbs with hc | hc <;> rw [hc] <;> rfl
  have hm2 : ∀ w : Str, startsWithStr (("tel:").data) (b.scheme ++ ':' :: w) = false := by
    intro w
    rcases hbs with hc | hc <;> rw [hc] <;> rfl
  have hm3 : ∀ w : Str, startsWithStr (("javascript:").data) (b.scheme ++ ':' :: w) = false := by
    intro w
    rcases hbs with hc | hc <;> rw [hc] <;> rfl
  have hCu : ¬(u.head? = some '#' ∨
      startsWithStr (("mailto:").data) u = true ∨
      startsWithStr (("tel:").data) u = true ∨
      startsWithStr (("javascript:").data) u = true) := by
    rw [hw7']
    rintro (hx | hx | hx | hx)
    · rw [hhd w7] at hx
      exact absurd hx (by decide)
    · rw [hm1 w7] at hx
      cases hx
    · rw [hm2 w7] at hx
      cases hx
    · rw [hm3 w7] at hx
      cases hx
  have hstrip : strip_trailing_slash u = u := by
    rw [strip_trailing_slash, if_neg]
    rintro ⟨hx, _⟩
    exact h4 hx
  simp only [normalize_url, hst]
  rw [if_neg hune, if_neg hCu]
  simp only [hjoin, urldefragNoHash huh, hstrip]

/-- Claim C9 counterexample: `normalize_url` is NOT stable on its own output
in general: normalizing `https://example.com/a//` yields
`https://example.com/a/` (one trailing slash stripped), and normalizing that
output again strips another slash, returning `https://example.com/a` instead
of it unchanged. -/
theorem claim_C9_counterexample :
    normalize_url (("https://example.com").data) (("https://example.com/a//").data)
      = .ok (some (("https://example.com/a/").data)) ∧
    normalize_url (("https://example.com").data) (("https://example.com/a/").data)
      = .ok (some (("https://example.com/a").data)) :=
  ⟨by decide, by decide⟩

/-- Witness for the amended claim C9: normalizing the canonical URL
`https://example.com/about` (itself the normalization of `/about` against
`https://example.com`) returns it unchanged. -/
theorem claim_C9_amended_witness :
    normalize_url (("https://example.com").data) (("https://example.com/about").data)
      = .ok (some (("https://example.com/about").data)) :=
  claim_C9_amended (("https://example.com").data) (("/about").data)
    (("https://example.com/about").data)
    ⟨("https").data, ("example.com").data, [], [], [], []⟩
    ⟨("https").data, ("example.com").data, ("/about").data, [], [], []⟩
    (by decide) (by decide) (by decide) (by decide) (by decide) (by decide)
    (by decide) (by decide) (by decide) (by decide) (by decide)
